import Mathlib

/-!
Shallow embedding of the Minesweeper rules engine in `components.py`.

The embedding keeps the source's names where Lean allows it: `CellState`,
`Board`, `Board.index`, `Board.is_inbounds`, `Board.neighbors`,
`Board.place_mines`, `Board.reveal`, `Board.toggle_flag`,
`Board.flagged_count`, `Board.reveal_all_mines` (source `_reveal_all_mines`)
and `Board.check_win` (source `_check_win`).  Python integers are `Int`,
the flat row-major cell list is a `List CellState`, and the `while queue`
breadth-first flood fill is a fuel-indexed recursion (`floodLoop`) whose
fuel is provably sufficient.  `random.shuffle` is a function parameter
`shuffle`; theorems that depend on it assume it permutes (or stays inside)
its input list.
-/

structure CellState where
  is_mine : Bool := false
  is_revealed : Bool := false
  is_flagged : Bool := false
  adjacent : Nat := 0
deriving DecidableEq

instance : Inhabited CellState := ⟨{}⟩

structure Board where
  cols : Int
  rows : Int
  num_mines : Int
  cells : List CellState
  mines_placed : Bool
  revealed_count : Nat
  game_over : Bool
  win : Bool
deriving DecidableEq

def inbOf (cols rows : Int) (p : Int × Int) : Prop :=
  0 ≤ p.1 ∧ p.1 < cols ∧ 0 ≤ p.2 ∧ p.2 < rows

instance (cols rows : Int) (p : Int × Int) : Decidable (inbOf cols rows p) := by
  unfold inbOf; infer_instance

def mineDeltas : List (Int × Int) :=
  [(-1, -1), (0, -1), (1, -1), (-1, 0), (1, 0), (-1, 1), (0, 1), (1, 1)]

def neighborsOf (cols rows : Int) (col row : Int) : List (Int × Int) :=
  (mineDeltas.map (fun d => (col + d.1, row + d.2))).filter
    (fun p => decide (inbOf cols rows p))

def cellAtL (cells : List CellState) (cols : Int) (col row : Int) : CellState :=
  cells.getD (row * cols + col).toNat default

def setRevealedL (cells : List CellState) (cols : Int) (col row : Int) : List CellState :=
  cells.set (row * cols + col).toNat { cellAtL cells cols col row with is_revealed := true }

def setMineL (cells : List CellState) (cols : Int) (p : Int × Int) : List CellState :=
  cells.set (p.2 * cols + p.1).toNat { cellAtL cells cols p.1 p.2 with is_mine := true }

def allPositionsOf (cols rows : Int) : List (Int × Int) :=
  ((List.range rows.toNat).map fun r =>
    (List.range cols.toNat).map fun c => (Int.ofNat c, Int.ofNat r)).flatten

def pythonSliceTo (n : Int) (l : List α) : List α :=
  if 0 ≤ n then l.take n.toNat else l.take (l.length - (-n).toNat)

def Board.index (b : Board) (col row : Int) : Int := row * b.cols + col

def Board.is_inbounds (b : Board) (col row : Int) : Prop :=
  inbOf b.cols b.rows (col, row)

instance (b : Board) (col row : Int) : Decidable (b.is_inbounds col row) := by
  unfold Board.is_inbounds; infer_instance

def Board.neighbors (b : Board) (col row : Int) : List (Int × Int) :=
  neighborsOf b.cols b.rows col row

def Board.cellAt (b : Board) (col row : Int) : CellState :=
  cellAtL b.cells b.cols col row

def Board.minePool (b : Board) (safe_col safe_row : Int) : List (Int × Int) :=
  (allPositionsOf b.cols b.rows).filter
    (fun p => ! decide (p ∈ (safe_col, safe_row) :: b.neighbors safe_col safe_row))

def Board.minePositions (b : Board)
    (shuffle : List (Int × Int) → List (Int × Int)) (safe_col safe_row : Int) :
    List (Int × Int) :=
  pythonSliceTo b.num_mines (shuffle (b.minePool safe_col safe_row))

def Board.place_mines (b : Board)
    (shuffle : List (Int × Int) → List (Int × Int)) (safe_col safe_row : Int) : Board :=
  let minedCells := (b.minePositions shuffle safe_col safe_row).foldl
    (fun cs p => setMineL cs b.cols p) b.cells
  let adjCells := (allPositionsOf b.cols b.rows).foldl
    (fun cs p =>
      if (cellAtL cs b.cols p.1 p.2).is_mine then cs
      else cs.set (p.2 * b.cols + p.1).toNat
        { cellAtL cs b.cols p.1 p.2 with
          adjacent := ((b.neighbors p.1 p.2).filter
            (fun q => (cellAtL cs b.cols q.1 q.2).is_mine)).length })
    minedCells
  { b with cells := adjCells, mines_placed := true }

def floodLoop (cols rows : Int) :
    Nat → List (Int × Int) → List (Int × Int) → List CellState → Nat →
    List CellState × Nat
  | 0, _, _, cells, count => (cells, count)
  | _ + 1, [], _, cells, count => (cells, count)
  | fuel + 1, (c, r) :: rest, visited, cells, count =>
    if (c, r) ∈ visited then floodLoop cols rows fuel rest visited cells count
    else
      let visited' := (c, r) :: visited
      let cell := cellAtL cells cols c r
      if cell.is_revealed || cell.is_flagged then
        floodLoop cols rows fuel rest visited' cells count
      else if cell.is_mine then
        floodLoop cols rows fuel rest visited' cells count
      else
        let cells' := setRevealedL cells cols c r
        if cell.adjacent == 0 then
          floodLoop cols rows fuel
            (rest ++ (neighborsOf cols rows c r).filter (fun p => ! decide (p ∈ visited')))
            visited' cells' (count + 1)
        else
          floodLoop cols rows fuel rest visited' cells' (count + 1)

def Board.reveal_all_mines (b : Board) : Board :=
  { b with cells := b.cells.map fun cell =>
      if cell.is_mine then { cell with is_revealed := true } else cell }

def Board.check_win (b : Board) : Board :=
  if (b.revealed_count : Int) = b.cols * b.rows - b.num_mines ∧ b.game_over = false then
    { b with win := true,
             cells := b.cells.map fun cell =>
               if cell.is_revealed = false ∧ cell.is_mine = false then
                 { cell with is_revealed := true }
               else cell }
  else b

def Board.reveal (b : Board)
    (shuffle : List (Int × Int) → List (Int × Int)) (col row : Int) : Board :=
  if ¬ b.is_inbounds col row then b
  else
    let b1 := if b.mines_placed then b else b.place_mines shuffle col row
    let cell := b1.cellAt col row
    if cell.is_revealed || cell.is_flagged then b1
    else if cell.is_mine then Board.reveal_all_mines { b1 with game_over := true }
    else
      let res := floodLoop b1.cols b1.rows (9 * (b1.cols * b1.rows).toNat + 1)
        [(col, row)] [] b1.cells b1.revealed_count
      Board.check_win { b1 with cells := res.1, revealed_count := res.2 }

/-- Modelled from the spec: `Board.toggle_flag` is an unimplemented TODO stub
(`pass`) in `components.py`; spec §4.6 specifies it as a no-op when the
coordinate is out of bounds or the cell is already revealed, and otherwise
as inverting `is_flagged`. -/
def Board.toggle_flag (b : Board) (col row : Int) : Board :=
  if ¬ b.is_inbounds col row then b
  else
    let cell := b.cellAt col row
    if cell.is_revealed then b
    else
      let newCells := b.cells.set (b.index col row).toNat
        { cell with is_flagged := ! cell.is_flagged }
      { b with cells := newCells }

/-- Modelled from the spec: `Board.flagged_count` is an unimplemented TODO
stub in `components.py`; spec §4.7 specifies it as the count of cells across
the board with `is_flagged == true`, a pure query. -/
def Board.flagged_count (b : Board) : Nat :=
  (b.cells.filter fun cell => cell.is_flagged).length

def Board.init (cols rows mines : Int) : Board :=
  { cols := cols, rows := rows, num_mines := mines,
    cells := ((List.range rows.toNat).map fun _ =>
      (List.range cols.toNat).map fun _ => ({} : CellState)).flatten,
    mines_placed := false, revealed_count := 0, game_over := false, win := false }

inductive GameAction
  | reveal (col row : Int)
  | toggleFlag (col row : Int)
deriving DecidableEq

def applyAction (shuffle : List (Int × Int) → List (Int × Int)) (b : Board) :
    GameAction → Board
  | .reveal col row => b.reveal shuffle col row
  | .toggleFlag col row => b.toggle_flag col row

def plays (shuffle : List (Int × Int) → List (Int × Int)) (b : Board)
    (acts : List GameAction) : Board :=
  acts.foldl (applyAction shuffle) b

def terminalFree (shuffle : List (Int × Int) → List (Int × Int)) :
    Board → List GameAction → Bool
  | _, [] => true
  | b, a :: rest =>
    (!b.game_over && !b.win) && terminalFree shuffle (applyAction shuffle b a) rest

def revealableAt (b : Board) (p : Int × Int) : Prop :=
  inbOf b.cols b.rows p ∧ (b.cellAt p.1 p.2).is_revealed = false ∧
    (b.cellAt p.1 p.2).is_flagged = false ∧ (b.cellAt p.1 p.2).is_mine = false

def zeroAt (b : Board) (p : Int × Int) : Prop :=
  revealableAt b p ∧ (b.cellAt p.1 p.2).adjacent = 0

def floodStep (b : Board) (p q : Int × Int) : Prop :=
  zeroAt b p ∧ q ∈ neighborsOf b.cols b.rows p.1 p.2

def zeroRegion (b : Board) (t p : Int × Int) : Prop :=
  Relation.ReflTransGen (floodStep b) t p ∧ zeroAt b p

def zeroBorder (b : Board) (t q : Int × Int) : Prop :=
  revealableAt b q ∧ ∃ p, zeroRegion b t p ∧ q ∈ neighborsOf b.cols b.rows p.1 p.2

def claimOpen (b : Board) (p : Int × Int) : Prop :=
  inbOf b.cols b.rows p ∧ (b.cellAt p.1 p.2).is_flagged = false ∧
    (b.cellAt p.1 p.2).is_mine = false

def claimZero (b : Board) (p : Int × Int) : Prop :=
  claimOpen b p ∧ (b.cellAt p.1 p.2).adjacent = 0

def claimStep (b : Board) (p q : Int × Int) : Prop :=
  claimZero b p ∧ q ∈ neighborsOf b.cols b.rows p.1 p.2

def claimRegion (b : Board) (t p : Int × Int) : Prop :=
  Relation.ReflTransGen (claimStep b) t p ∧ claimZero b p

def claimBorder (b : Board) (t q : Int × Int) : Prop :=
  claimOpen b q ∧ ∃ p, claimRegion b t p ∧ q ∈ neighborsOf b.cols b.rows p.1 p.2

def newlyRevealed (b b' : Board) (p : Int × Int) : Prop :=
  (b'.cellAt p.1 p.2).is_revealed = true ∧ (b.cellAt p.1 p.2).is_revealed = false

def newlyRevealedCount : List CellState → List CellState → Nat
  | c :: cs, c' :: cs' =>
    (if c.is_revealed = false ∧ c'.is_revealed = true then 1 else 0) +
      newlyRevealedCount cs cs'
  | _, _ => 0

instance (b : Board) (p : Int × Int) : Decidable (revealableAt b p) := by
  unfold revealableAt; infer_instance

instance (b : Board) (p : Int × Int) : Decidable (zeroAt b p) := by
  unfold zeroAt; infer_instance

instance (b : Board) (p : Int × Int) : Decidable (claimOpen b p) := by
  unfold claimOpen; infer_instance

instance (b : Board) (p : Int × Int) : Decidable (claimZero b p) := by
  unfold claimZero; infer_instance

instance (b b' : Board) (p : Int × Int) : Decidable (newlyRevealed b b' p) := by
  unfold newlyRevealed; infer_instance

/-! ### Generic list lemmas -/

theorem getD_set_self {α : Type} [Inhabited α] (l : List α) (i : Nat) (a : α)
    (h : i < l.length) : (l.set i a).getD i default = a := by
  induction l generalizing i with
  | nil => simp at h
  | cons x xs ih =>
    cases i with
    | zero => rfl
    | succ j => simpa using ih j (by simpa using h)

theorem getD_set_ne {α : Type} [Inhabited α] (l : List α) (i j : Nat) (a : α)
    (h : i ≠ j) : (l.set i a).getD j default = l.getD j default := by
  induction l generalizing i j with
  | nil => rfl
  | cons x xs ih =>
    cases i with
    | zero =>
      cases j with
      | zero => exact absurd rfl h
      | succ j' => rfl
    | succ i' =>
      cases j with
      | zero => rfl
      | succ j' => simpa using ih i' j' (by omega)

theorem getD_map_lt {α β : Type} [Inhabited α] [Inhabited β] (l : List α)
    (f : α → β) (i : Nat) (h : i < l.length) :
    (l.map f).getD i default = f (l.getD i default) := by
  induction l generalizing i with
  | nil => simp at h
  | cons x xs ih =>
    cases i with
    | zero => rfl
    | succ j => simpa using ih j (by simpa using h)

theorem length_filter_add_length_filter_not {α : Type} (l : List α) (p : α → Bool) :
    (l.filter p).length + (l.filter (fun a => ! p a)).length = l.length := by
  induction l with
  | nil => rfl
  | cons x xs ih =>
    by_cases hx : p x = true
    · simp [List.filter_cons, hx, Nat.succ_add, ih]
    · simp only [Bool.not_eq_true] at hx
      simp [List.filter_cons, hx, ← ih]
      omega

theorem length_filter_mono_of_imp {α : Type} (l : List α) (p q : α → Bool)
    (h : ∀ a, p a = true → q a = true) :
    (l.filter p).length ≤ (l.filter q).length := by
  induction l with
  | nil => exact Nat.le_refl 0
  | cons x xs ih =>
    by_cases hx : p x = true
    · simp [List.filter_cons, hx, h x hx]; omega
    · simp only [Bool.not_eq_true] at hx
      simp only [List.filter_cons, hx]
      by_cases hq : q x = true <;> simp [hq] <;> omega

theorem all_of_filter_length_le {α : Type} (l : List α) (p q : α → Bool)
    (himp : ∀ a, p a = true → q a = true)
    (hle : (l.filter q).length ≤ (l.filter p).length) :
    ∀ a ∈ l, q a = true → p a = true := by
  induction l with
  | nil => intro a ha; simp at ha
  | cons x xs ih =>
    intro a ha hqa
    by_cases hpx : p x = true
    · have hqx := himp x hpx
      simp only [List.filter_cons, hqx, hpx, if_pos, List.length_cons] at hle
      rcases List.mem_cons.mp ha with rfl | ha'
      · exact hpx
      · exact ih (by simpa using hle) a ha' hqa
    · simp only [Bool.not_eq_true] at hpx
      by_cases hqx : q x = true
      · exfalso
        have h1 : (xs.filter p).length ≤ (xs.filter q).length :=
          length_filter_mono_of_imp xs p q himp
        simp only [List.filter_cons, hqx, hpx, if_pos, Bool.false_eq_true,
          if_false, List.length_cons] at hle
        omega
      · simp only [Bool.not_eq_true] at hqx
        rcases List.mem_cons.mp ha with rfl | ha'
        · rw [hqa] at hqx; cases hqx
        · simp only [List.filter_cons, hqx, hpx, Bool.false_eq_true, if_false] at hle
          exact ih hle a ha' hqa

theorem map_eq_self_of_mem {α : Type} (l : List α) (f : α → α)
    (h : ∀ a ∈ l, f a = a) : l.map f = l := by
  induction l with
  | nil => rfl
  | cons x xs ih =>
    simp only [List.map_cons, h x (List.mem_cons_self x xs),
      ih (fun a ha => h a (List.mem_cons_of_mem x ha))]

/-! ### Grid and index arithmetic -/

theorem idx_nonneg {cols rows : Int} {p : Int × Int} (h : inbOf cols rows p) :
    0 ≤ p.2 * cols + p.1 := by
  obtain ⟨h1, h2, h3, h4⟩ := h
  have : 0 ≤ p.2 * cols := mul_nonneg h3 (le_trans h1 (le_of_lt h2))
  omega

theorem idx_lt {cols rows : Int} {p : Int × Int} (h : inbOf cols rows p) :
    p.2 * cols + p.1 < cols * rows := by
  obtain ⟨h1, h2, h3, h4⟩ := h
  have hstep : p.2 * cols + p.1 < (p.2 + 1) * cols := by
    have : (p.2 + 1) * cols = p.2 * cols + cols := by ring
    omega
  have hmono : (p.2 + 1) * cols ≤ rows * cols := by
    have : p.2 + 1 ≤ rows := by omega
    exact mul_le_mul_of_nonneg_right this (by omega)
  have : rows * cols = cols * rows := by ring
  omega

theorem idxNat_lt {cols rows : Int} {p : Int × Int} (h : inbOf cols rows p) :
    (p.2 * cols + p.1).toNat < (cols * rows).toNat := by
  have h1 := idx_nonneg h
  have h2 := idx_lt h
  omega

theorem idx_inj {cols rows : Int} {p q : Int × Int} (hp : inbOf cols rows p)
    (hq : inbOf cols rows q) (h : p.2 * cols + p.1 = q.2 * cols + q.1) : p = q := by
  obtain ⟨hp1, hp2, hp3, hp4⟩ := hp
  obtain ⟨hq1, hq2, hq3, hq4⟩ := hq
  have hrows : p.2 = q.2 := by
    by_contra hne
    rcases lt_or_gt_of_ne hne with hlt | hgt
    · have h1 : p.2 + 1 ≤ q.2 := by omega
      have h2 : (p.2 + 1) * cols ≤ q.2 * cols :=
        mul_le_mul_of_nonneg_right h1 (by omega)
      have h3 : (p.2 + 1) * cols = p.2 * cols + cols := by ring
      omega
    · have h1 : q.2 + 1 ≤ p.2 := by omega
      have h2 : (q.2 + 1) * cols ≤ p.2 * cols :=
        mul_le_mul_of_nonneg_right h1 (by omega)
      have h3 : (q.2 + 1) * cols = q.2 * cols + cols := by ring
      omega
  have : p.1 = q.1 := by
    rw [hrows] at h; omega
  exact Prod.ext this hrows

theorem idxNat_inj {cols rows : Int} {p q : Int × Int} (hp : inbOf cols rows p)
    (hq : inbOf cols rows q) (h : (p.2 * cols + p.1).toNat = (q.2 * cols + q.1).toNat) :
    p = q := by
  have h1 := idx_nonneg hp
  have h2 := idx_nonneg hq
  exact idx_inj hp hq (by omega)

theorem cellAtL_set_self {cells : List CellState} {cols rows : Int} {p : Int × Int}
    (hp : inbOf cols rows p) (hlen : cells.length = (cols * rows).toNat) (v : CellState) :
    cellAtL (cells.set (p.2 * cols + p.1).toNat v) cols p.1 p.2 = v := by
  unfold cellAtL
  exact getD_set_self _ _ _ (by rw [hlen]; exact idxNat_lt hp)

theorem cellAtL_set_ne {cells : List CellState} {cols rows : Int} {p q : Int × Int}
    (hp : inbOf cols rows p) (hq : inbOf cols rows q) (hne : p ≠ q) (v : CellState) :
    cellAtL (cells.set (p.2 * cols + p.1).toNat v) cols q.1 q.2 =
      cellAtL cells cols q.1 q.2 := by
  unfold cellAtL
  exact getD_set_ne _ _ _ _ (fun hc => hne (idxNat_inj hp hq hc))

theorem mem_neighborsOf {cols rows : Int} {col row : Int} {q : Int × Int} :
    q ∈ neighborsOf cols rows col row ↔
      inbOf cols rows q ∧ ∃ d ∈ mineDeltas, q = (col + d.1, row + d.2) := by
  unfold neighborsOf
  simp only [List.mem_filter, List.mem_map, decide_eq_true_eq]
  constructor
  · rintro ⟨⟨d, hd, rfl⟩, hinb⟩
    exact ⟨hinb, d, hd, rfl⟩
  · rintro ⟨hinb, d, hd, rfl⟩
    exact ⟨⟨d, hd, rfl⟩, hinb⟩

theorem neighborsOf_inb {cols rows : Int} {col row : Int} {q : Int × Int}
    (h : q ∈ neighborsOf cols rows col row) : inbOf cols rows q :=
  (mem_neighborsOf.mp h).1

theorem neighborsOf_length_le (cols rows col row : Int) :
    (neighborsOf cols rows col row).length ≤ 8 := by
  unfold neighborsOf
  calc ((mineDeltas.map fun d => (col + d.1, row + d.2)).filter
          (fun p => decide (inbOf cols rows p))).length
      ≤ (mineDeltas.map fun d => (col + d.1, row + d.2)).length :=
        List.length_filter_le _ _
    _ = 8 := by simp [mineDeltas]

theorem mem_allPositionsOf {cols rows : Int} {p : Int × Int} :
    p ∈ allPositionsOf cols rows ↔ inbOf cols rows p := by
  obtain ⟨x, y⟩ := p
  unfold allPositionsOf inbOf
  rw [List.mem_flatten]
  constructor
  · rintro ⟨l, hl, hp⟩
    simp only [List.mem_map, List.mem_range] at hl
    obtain ⟨r, hr, rfl⟩ := hl
    simp only [List.mem_map, List.mem_range, Prod.mk.injEq] at hp
    obtain ⟨c, hc, hcx, hry⟩ := hp
    simp only [Int.ofNat_eq_natCast] at hcx hry
    omega
  · intro h
    refine ⟨(List.range cols.toNat).map fun c => (Int.ofNat c, Int.ofNat y.toNat),
      ?_, ?_⟩
    · simp only [List.mem_map, List.mem_range]
      exact ⟨y.toNat, by omega, rfl⟩
    · simp only [List.mem_map, List.mem_range, Prod.mk.injEq]
      refine ⟨x.toNat, by omega, ?_, ?_⟩ <;>
        simp only [Int.ofNat_eq_natCast] <;> omega

theorem sum_map_const_range (n k : Nat) : ((List.range n).map fun _ => k).sum = n * k := by
  induction n with
  | zero => simp
  | succ m ih =>
    rw [List.range_succ, List.map_append, List.sum_append]
    simp [ih, Nat.succ_mul]

theorem allPositionsOf_length (cols rows : Int) :
    (allPositionsOf cols rows).length = rows.toNat * cols.toNat := by
  unfold allPositionsOf
  rw [List.length_flatten, List.map_map]
  have h : (List.length ∘ fun r : Nat =>
      (List.range cols.toNat).map fun c => (Int.ofNat c, Int.ofNat r)) =
      fun _ : Nat => cols.toNat := by
    funext r; simp
  rw [h, sum_map_const_range]

theorem allPositionsOf_nodup (cols rows : Int) : (allPositionsOf cols rows).Nodup := by
  unfold allPositionsOf
  rw [List.nodup_flatten]
  constructor
  · intro l hl
    simp only [List.mem_map] at hl
    obtain ⟨r, _, rfl⟩ := hl
    refine List.Nodup.map ?_ (List.nodup_range _)
    intro a b hab
    have := congrArg Prod.fst hab
    simpa [Int.ofNat_eq_natCast] using this
  · rw [List.pairwise_map]
    have hlt : (List.range rows.toNat).Pairwise (· < ·) := List.pairwise_lt_range _
    refine hlt.imp ?_
    intro r r' hrr
    intro x hx hx'
    simp only [List.mem_map] at hx hx'
    obtain ⟨c, _, rfl⟩ := hx
    obtain ⟨c', _, h2⟩ := hx'
    have := congrArg Prod.snd h2
    simp only [Int.ofNat_eq_natCast] at this
    have : r' = r := by exact_mod_cast this
    omega

theorem minePool_subset_all (b : Board) (sc sr : Int) :
    b.minePool sc sr ⊆ allPositionsOf b.cols b.rows := by
  unfold Board.minePool
  intro x hx
  exact (List.mem_filter.mp hx).1

theorem mem_minePool_inb {b : Board} {sc sr : Int} {p : Int × Int}
    (h : p ∈ b.minePool sc sr) : inbOf b.cols b.rows p :=
  mem_allPositionsOf.mp (minePool_subset_all b sc sr h)

theorem mem_minePool_not_forbidden {b : Board} {sc sr : Int} {p : Int × Int}
    (h : p ∈ b.minePool sc sr) : ¬ p ∈ (sc, sr) :: b.neighbors sc sr := by
  unfold Board.minePool at h
  have := (List.mem_filter.mp h).2
  simpa using this

theorem minePool_nodup (b : Board) (sc sr : Int) : (b.minePool sc sr).Nodup :=
  List.Nodup.filter _ (allPositionsOf_nodup b.cols b.rows)

theorem minePool_length_ge (b : Board) (sc sr : Int) :
    (allPositionsOf b.cols b.rows).length ≤ (b.minePool sc sr).length + 9 := by
  unfold Board.minePool
  set P : Int × Int → Bool :=
    fun p => ! decide (p ∈ (sc, sr) :: b.neighbors sc sr) with hP
  have hsplit := length_filter_add_length_filter_not (allPositionsOf b.cols b.rows) P
  have hsub : (allPositionsOf b.cols b.rows).filter (fun a => ! P a) ⊆
      (sc, sr) :: b.neighbors sc sr := by
    intro x hx
    have := (List.mem_filter.mp hx).2
    simp only [hP, Bool.not_not, decide_eq_true_eq] at this
    exact this
  have hnodup : ((allPositionsOf b.cols b.rows).filter (fun a => ! P a)).Nodup :=
    List.Nodup.filter _ (allPositionsOf_nodup b.cols b.rows)
  have hsp := List.Subperm.length_le (List.subperm_of_subset hnodup hsub)
  have hlen9 : ((sc, sr) :: b.neighbors sc sr).length ≤ 9 := by
    have := neighborsOf_length_le b.cols b.rows sc sr
    simp only [List.length_cons, Board.neighbors]
    omega
  omega

/-! ### Pointwise list relations used as frame conditions -/

def cellMono (a b : CellState) : Prop :=
  b.is_mine = a.is_mine ∧ b.is_flagged = a.is_flagged ∧ b.adjacent = a.adjacent ∧
    (a.is_revealed = true → b.is_revealed = true)

theorem cellMono_refl (a : CellState) : cellMono a a := ⟨rfl, rfl, rfl, fun h => h⟩

theorem cellMono_trans {a b c : CellState} (h₁ : cellMono a b) (h₂ : cellMono b c) :
    cellMono a c := by
  obtain ⟨m1, f1, a1, r1⟩ := h₁
  obtain ⟨m2, f2, a2, r2⟩ := h₂
  exact ⟨m2.trans m1, f2.trans f1, a2.trans a1, fun h => r2 (r1 h)⟩

theorem forall₂_refl_of {R : CellState → CellState → Prop}
    (h : ∀ a : CellState, R a a) (l : List CellState) : List.Forall₂ R l l := by
  induction l with
  | nil => exact List.Forall₂.nil
  | cons x xs ih => exact List.Forall₂.cons (h x) ih

theorem forall₂_trans_of {R : CellState → CellState → Prop}
    (h : ∀ a b c : CellState, R a b → R b c → R a c) :
    ∀ {l₁ l₂ l₃ : List CellState},
      List.Forall₂ R l₁ l₂ → List.Forall₂ R l₂ l₃ → List.Forall₂ R l₁ l₃ := by
  intro l₁ l₂ l₃ h₁ h₂
  induction h₁ generalizing l₃ with
  | nil => cases h₂; exact List.Forall₂.nil
  | cons hab h₁' ih =>
    cases h₂ with
    | cons hbc h₂' => exact List.Forall₂.cons (h _ _ _ hab hbc) (ih h₂')

theorem forall₂_getD_of {R : CellState → CellState → Prop}
    (hd : R default default) {l l' : List CellState}
    (h : List.Forall₂ R l l') (i : Nat) :
    R (l.getD i default) (l'.getD i default) := by
  induction h generalizing i with
  | nil => exact hd
  | cons hab h' ih =>
    cases i with
    | zero => exact hab
    | succ j => simpa using ih j

theorem forall₂_set_right {R : CellState → CellState → Prop}
    (hrefl : ∀ a : CellState, R a a) (l : List CellState) (i : Nat) (v : CellState)
    (hv : R (l.getD i default) v) : List.Forall₂ R l (l.set i v) := by
  induction l generalizing i with
  | nil => exact List.Forall₂.nil
  | cons x xs ih =>
    cases i with
    | zero => exact List.Forall₂.cons hv (forall₂_refl_of hrefl xs)
    | succ j => exact List.Forall₂.cons (hrefl x) (ih j hv)

theorem foldl_forall₂ {σ : Type} {R : CellState → CellState → Prop}
    (htrans : ∀ a b c : CellState, R a b → R b c → R a c)
    (hrefl : ∀ a : CellState, R a a)
    (step : List CellState → σ → List CellState)
    (hstep : ∀ cs x, List.Forall₂ R cs (step cs x)) :
    ∀ (L : List σ) (cs : List CellState), List.Forall₂ R cs (L.foldl step cs) := by
  intro L
  induction L with
  | nil => intro cs; exact forall₂_refl_of hrefl cs
  | cons x xs ih =>
    intro cs
    exact forall₂_trans_of htrans (hstep cs x) (ih (step cs x))

theorem filter_length_eq_of_forall₂ {R : CellState → CellState → Prop}
    (P : CellState → Bool) (hP : ∀ a b, R a b → P b = P a) :
    ∀ {l l' : List CellState}, List.Forall₂ R l l' →
      (l'.filter P).length = (l.filter P).length := by
  intro l l' h
  induction h with
  | nil => rfl
  | @cons a b l₁ l₂ hab h' ih =>
    simp only [List.filter_cons, hP a b hab]
    cases hx : P a
    · simp only [Bool.false_eq_true, if_false]; exact ih
    · simp only [if_true, List.length_cons, ih]

def cellsMono (l l' : List CellState) : Prop := List.Forall₂ cellMono l l'

theorem cellsMono_refl (l : List CellState) : cellsMono l l :=
  forall₂_refl_of cellMono_refl l

theorem cellsMono_trans {l₁ l₂ l₃ : List CellState} (h₁ : cellsMono l₁ l₂)
    (h₂ : cellsMono l₂ l₃) : cellsMono l₁ l₃ := by
  unfold cellsMono at h₁ h₂ ⊢
  exact @forall₂_trans_of cellMono (fun _ _ _ hab hbc => cellMono_trans hab hbc) _ _ _ h₁ h₂

theorem setRevealedL_mono (cells : List CellState) (cols c r : Int) :
    cellsMono cells (setRevealedL cells cols c r) := by
  unfold setRevealedL cellAtL
  exact forall₂_set_right cellMono_refl _ _ _ ⟨rfl, rfl, rfl, fun _ => rfl⟩

theorem setRevealedL_length (cells : List CellState) (cols c r : Int) :
    (setRevealedL cells cols c r).length = cells.length := by
  unfold setRevealedL
  exact List.length_set ..

theorem nRC_refl (l : List CellState) : newlyRevealedCount l l = 0 := by
  induction l with
  | nil => rfl
  | cons x xs ih =>
    simp only [newlyRevealedCount, ih]
    cases hx : x.is_revealed <;> simp [hx]

theorem nRC_trans : ∀ {l₁ l₂ l₃ : List CellState}, cellsMono l₁ l₂ → cellsMono l₂ l₃ →
    newlyRevealedCount l₁ l₃ = newlyRevealedCount l₁ l₂ + newlyRevealedCount l₂ l₃ := by
  intro l₁ l₂ l₃ h₁ h₂
  induction h₁ generalizing l₃ with
  | nil => cases h₂; simp [newlyRevealedCount]
  | @cons a b l₁' l₂' hab h₁' ih =>
    cases h₂ with
    | @cons b' c l₂'' l₃' hbc h₂' =>
      have hm1 := hab.2.2.2
      have hm2 := hbc.2.2.2
      simp only [newlyRevealedCount, ih h₂']
      cases ha : a.is_revealed <;> cases hb : b.is_revealed <;> cases hc : c.is_revealed <;>
        simp_all <;> omega

theorem nRC_set (l : List CellState) (i : Nat) (hi : i < l.length)
    (hrev : (l.getD i default).is_revealed = false) :
    newlyRevealedCount l (l.set i { l.getD i default with is_revealed := true }) = 1 := by
  induction l generalizing i with
  | nil => simp at hi
  | cons x xs ih =>
    cases i with
    | zero =>
      simp only [List.getD_cons_zero] at hrev
      simp only [List.set_cons_zero, List.getD_cons_zero, newlyRevealedCount, nRC_refl,
        hrev]
      simp
    | succ j =>
      simp only [List.getD_cons_succ] at hrev
      simp only [List.set_cons_succ, List.getD_cons_succ, newlyRevealedCount,
        ih j (by simpa using hi) hrev]
      cases hx : x.is_revealed <;> simp [hx]

theorem filter_length_set_true (l : List CellState) (P : CellState → Bool) (i : Nat)
    (v : CellState) (hi : i < l.length) (hold : P (l.getD i default) = false)
    (hnew : P v = true) :
    ((l.set i v).filter P).length = (l.filter P).length + 1 := by
  induction l generalizing i with
  | nil => simp at hi
  | cons x xs ih =>
    cases i with
    | zero =>
      simp only [List.getD_cons_zero] at hold
      simp only [List.set_cons_zero, List.filter_cons, hold, hnew]
      simp
    | succ j =>
      simp only [List.getD_cons_succ] at hold
      simp only [List.set_cons_succ, List.filter_cons]
      cases hx : P x <;>
        simp [ih j (by simpa using hi) hold]

/-! ### Unfolding lemmas for the flood-fill loop -/

theorem floodLoop_fuel_zero (cols rows : Int) (Q V : List (Int × Int))
    (cells : List CellState) (count : Nat) :
    floodLoop cols rows 0 Q V cells count = (cells, count) := by
  cases Q with
  | nil => rfl
  | cons p rest => obtain ⟨c, r⟩ := p; rfl

theorem floodLoop_nil (cols rows : Int) (fuel : Nat) (V : List (Int × Int))
    (cells : List CellState) (count : Nat) :
    floodLoop cols rows (fuel + 1) [] V cells count = (cells, count) := rfl

theorem floodLoop_visited {cols rows c r : Int} {V : List (Int × Int)}
    (hmem : (c, r) ∈ V) (fuel : Nat) (rest : List (Int × Int))
    (cells : List CellState) (count : Nat) :
    floodLoop cols rows (fuel + 1) ((c, r) :: rest) V cells count =
      floodLoop cols rows fuel rest V cells count := by
  rw [floodLoop]
  rw [if_pos hmem]

theorem floodLoop_skip1 {cols rows c r : Int} {V : List (Int × Int)}
    {cells : List CellState} (hmem : ¬ (c, r) ∈ V)
    (h1 : ((cellAtL cells cols c r).is_revealed || (cellAtL cells cols c r).is_flagged)
      = true) (fuel : Nat) (rest : List (Int × Int)) (count : Nat) :
    floodLoop cols rows (fuel + 1) ((c, r) :: rest) V cells count =
      floodLoop cols rows fuel rest ((c, r) :: V) cells count := by
  rw [floodLoop]
  rw [if_neg hmem]
  simp only [h1, if_true]

theorem floodLoop_skip2 {cols rows c r : Int} {V : List (Int × Int)}
    {cells : List CellState} (hmem : ¬ (c, r) ∈ V)
    (h1 : ((cellAtL cells cols c r).is_revealed || (cellAtL cells cols c r).is_flagged)
      = false)
    (h2 : (cellAtL cells cols c r).is_mine = true) (fuel : Nat)
    (rest : List (Int × Int)) (count : Nat) :
    floodLoop cols rows (fuel + 1) ((c, r) :: rest) V cells count =
      floodLoop cols rows fuel rest ((c, r) :: V) cells count := by
  rw [floodLoop]
  rw [if_neg hmem]
  simp only [h1, h2, Bool.false_eq_true, if_false, if_true]

theorem floodLoop_reveal_zero {cols rows c r : Int} {V : List (Int × Int)}
    {cells : List CellState} (hmem : ¬ (c, r) ∈ V)
    (h1 : ((cellAtL cells cols c r).is_revealed || (cellAtL cells cols c r).is_flagged)
      = false)
    (h2 : (cellAtL cells cols c r).is_mine = false)
    (h3 : (cellAtL cells cols c r).adjacent = 0) (fuel : Nat)
    (rest : List (Int × Int)) (count : Nat) :
    floodLoop cols rows (fuel + 1) ((c, r) :: rest) V cells count =
      floodLoop cols rows fuel
        (rest ++ (neighborsOf cols rows c r).filter
          (fun p => ! decide (p ∈ (c, r) :: V)))
        ((c, r) :: V) (setRevealedL cells cols c r) (count + 1) := by
  rw [floodLoop]
  rw [if_neg hmem]
  simp only [h1, h2, h3, Bool.false_eq_true, if_false, beq_self_eq_true, if_true]

theorem floodLoop_reveal_pos {cols rows c r : Int} {V : List (Int × Int)}
    {cells : List CellState} (hmem : ¬ (c, r) ∈ V)
    (h1 : ((cellAtL cells cols c r).is_revealed || (cellAtL cells cols c r).is_flagged)
      = false)
    (h2 : (cellAtL cells cols c r).is_mine = false)
    (h3 : ¬ (cellAtL cells cols c r).adjacent = 0) (fuel : Nat)
    (rest : List (Int × Int)) (count : Nat) :
    floodLoop cols rows (fuel + 1) ((c, r) :: rest) V cells count =
      floodLoop cols rows fuel rest ((c, r) :: V) (setRevealedL cells cols c r)
        (count + 1) := by
  rw [floodLoop]
  rw [if_neg hmem]
  simp only [h1, h2, h3, Bool.false_eq_true, if_false, beq_iff_eq, if_true]

theorem cellsMono_length {l l' : List CellState} (h : cellsMono l l') :
    l.length = l'.length := by
  unfold cellsMono at h
  exact h.length_eq

theorem floodLoop_mono (cols rows : Int) :
    ∀ (fuel : Nat) (Q V : List (Int × Int)) (cells : List CellState) (count : Nat),
      cellsMono cells (floodLoop cols rows fuel Q V cells count).1 := by
  intro fuel
  induction fuel with
  | zero =>
    intro Q V cells count
    rw [floodLoop_fuel_zero]
    exact cellsMono_refl cells
  | succ fuel ih =>
    intro Q V cells count
    cases Q with
    | nil =>
      rw [floodLoop_nil]
      exact cellsMono_refl cells
    | cons p rest =>
      obtain ⟨c, r⟩ := p
      by_cases hmem : (c, r) ∈ V
      · rw [floodLoop_visited hmem]; exact ih ..
      · by_cases h1 : ((cellAtL cells cols c r).is_revealed ||
            (cellAtL cells cols c r).is_flagged) = true
        · rw [floodLoop_skip1 hmem h1]; exact ih ..
        · have h1' : ((cellAtL cells cols c r).is_revealed ||
              (cellAtL cells cols c r).is_flagged) = false := by
            simpa using h1
          by_cases h2 : (cellAtL cells cols c r).is_mine = true
          · rw [floodLoop_skip2 hmem h1' h2]; exact ih ..
          · have h2' : (cellAtL cells cols c r).is_mine = false := by simpa using h2
            by_cases h3 : (cellAtL cells cols c r).adjacent = 0
            · rw [floodLoop_reveal_zero hmem h1' h2' h3]
              exact cellsMono_trans (setRevealedL_mono ..) (ih ..)
            · rw [floodLoop_reveal_pos hmem h1' h2' h3]
              exact cellsMono_trans (setRevealedL_mono ..) (ih ..)

theorem floodLoop_length (cols rows : Int) (fuel : Nat) (Q V : List (Int × Int))
    (cells : List CellState) (count : Nat) :
    (floodLoop cols rows fuel Q V cells count).1.length = cells.length :=
  (cellsMono_length (floodLoop_mono cols rows fuel Q V cells count)).symm

theorem floodLoop_count (cols rows : Int) :
    ∀ (fuel : Nat) (Q V : List (Int × Int)) (cells : List CellState) (count : Nat),
      (∀ p ∈ Q, inbOf cols rows p) → cells.length = (cols * rows).toNat →
      (floodLoop cols rows fuel Q V cells count).2 =
        count + newlyRevealedCount cells (floodLoop cols rows fuel Q V cells count).1 := by
  intro fuel
  induction fuel with
  | zero =>
    intro Q V cells count _ _
    rw [floodLoop_fuel_zero]
    simp [nRC_refl]
  | succ fuel ih =>
    intro Q V cells count hQ hlen
    cases Q with
    | nil =>
      rw [floodLoop_nil]
      simp [nRC_refl]
    | cons p rest =>
      obtain ⟨c, r⟩ := p
      have hinb : inbOf cols rows (c, r) := hQ _ (List.mem_cons_self ..)
      have hQrest : ∀ p ∈ rest, inbOf cols rows p :=
        fun p hp => hQ p (List.mem_cons_of_mem _ hp)
      by_cases hmem : (c, r) ∈ V
      · rw [floodLoop_visited hmem]; exact ih rest V cells count hQrest hlen
      · by_cases h1 : ((cellAtL cells cols c r).is_revealed ||
            (cellAtL cells cols c r).is_flagged) = true
        · rw [floodLoop_skip1 hmem h1]; exact ih rest _ cells count hQrest hlen
        · have h1' : ((cellAtL cells cols c r).is_revealed ||
              (cellAtL cells cols c r).is_flagged) = false := by
            simpa using h1
          have hrev : (cellAtL cells cols c r).is_revealed = false := by
            rcases Bool.or_eq_false_iff.mp h1' with ⟨hx, _⟩
            exact hx
          by_cases h2 : (cellAtL cells cols c r).is_mine = true
          · rw [floodLoop_skip2 hmem h1' h2]; exact ih rest _ cells count hQrest hlen
          · have h2' : (cellAtL cells cols c r).is_mine = false := by simpa using h2
            have hidx : (r * cols + c).toNat < cells.length := by
              rw [hlen]
              exact idxNat_lt hinb
            have hone : newlyRevealedCount cells (setRevealedL cells cols c r) = 1 := by
              unfold setRevealedL
              exact nRC_set cells _ hidx hrev
            have hlen' : (setRevealedL cells cols c r).length = (cols * rows).toNat := by
              rw [setRevealedL_length, hlen]
            by_cases h3 : (cellAtL cells cols c r).adjacent = 0
            · rw [floodLoop_reveal_zero hmem h1' h2' h3]
              have hQ' : ∀ p ∈ rest ++ (neighborsOf cols rows c r).filter
                  (fun p => ! decide (p ∈ (c, r) :: V)), inbOf cols rows p := by
                intro p hp
                rcases List.mem_append.mp hp with hp' | hp'
                · exact hQrest p hp'
                · exact neighborsOf_inb (List.mem_filter.mp hp').1
              rw [ih _ _ _ _ hQ' hlen']
              rw [nRC_trans (setRevealedL_mono cells cols c r) (floodLoop_mono ..)]
              rw [hone]
              omega
            · rw [floodLoop_reveal_pos hmem h1' h2' h3]
              rw [ih _ _ _ _ hQrest hlen']
              rw [nRC_trans (setRevealedL_mono cells cols c r) (floodLoop_mono ..)]
              rw [hone]
              omega

def gridOf (cols rows : Int) : Finset (Int × Int) :=
  Finset.Icc 0 (cols - 1) ×ˢ Finset.Icc 0 (rows - 1)

theorem mem_gridOf {cols rows : Int} {p : Int × Int} :
    p ∈ gridOf cols rows ↔ inbOf cols rows p := by
  unfold gridOf inbOf
  rw [Finset.mem_product, Finset.mem_Icc, Finset.mem_Icc]
  omega

theorem rtg_singleton_of_not_zero (b : Board) {t p : Int × Int} (hnz : ¬ zeroAt b t)
    (h : Relation.ReflTransGen (floodStep b) t p) : p = t := by
  rcases Relation.ReflTransGen.cases_head h with rfl | ⟨c, hstep, _⟩
  · rfl
  · exact absurd hstep.1 hnz

theorem flood_escape (b : Board) (V Q : List (Int × Int))
    (hVc : ∀ v ∈ V, zeroAt b v → ∀ q ∈ neighborsOf b.cols b.rows v.1 v.2,
      q ∈ V ∨ q ∈ Q) :
    ∀ {a p : Int × Int}, Relation.ReflTransGen (floodStep b) a p → a ∈ V →
      p ∈ V ∨ ∃ q ∈ Q, Relation.ReflTransGen (floodStep b) q p := by
  intro a p h
  induction h using Relation.ReflTransGen.head_induction_on with
  | refl => intro hp; exact Or.inl hp
  | head hstep hrest ih =>
    intro ha
    obtain ⟨hZ, hnb⟩ := hstep
    rcases hVc _ ha hZ _ hnb with hV | hQ
    · exact ih hV
    · exact Or.inr ⟨_, hQ, hrest⟩

theorem cellAtL_setRevealedL {cells : List CellState} {cols rows c r : Int}
    {p : Int × Int} (hcr : inbOf cols rows (c, r)) (hp : inbOf cols rows p)
    (hlen : cells.length = (cols * rows).toNat) :
    cellAtL (setRevealedL cells cols c r) cols p.1 p.2 =
      if p = (c, r) then { cellAtL cells cols c r with is_revealed := true }
      else cellAtL cells cols p.1 p.2 := by
  unfold setRevealedL cellAtL
  by_cases hpc : p = (c, r)
  · subst hpc
    rw [if_pos rfl]
    exact getD_set_self _ _ _ (by rw [hlen]; exact idxNat_lt hcr)
  · rw [if_neg hpc]
    exact getD_set_ne _ _ _ _ (fun hcon => hpc (idxNat_inj hcr hp hcon).symm)

theorem revealableAt_iff (b : Board) (p : Int × Int) :
    revealableAt b p ↔ inbOf b.cols b.rows p ∧
      (cellAtL b.cells b.cols p.1 p.2).is_revealed = false ∧
      (cellAtL b.cells b.cols p.1 p.2).is_flagged = false ∧
      (cellAtL b.cells b.cols p.1 p.2).is_mine = false := Iff.rfl

theorem floodLoop_char (b : Board) (hlen0 : b.cells.length = (b.cols * b.rows).toNat) :
    ∀ (fuel : Nat) (Q V : List (Int × Int)) (cells : List CellState) (count : Nat),
      Q.length + 9 * ((gridOf b.cols b.rows) \ V.toFinset).card ≤ fuel →
      (∀ p ∈ Q, inbOf b.cols b.rows p) →
      (∀ v ∈ V, zeroAt b v → ∀ q ∈ neighborsOf b.cols b.rows v.1 v.2,
        q ∈ V ∨ q ∈ Q) →
      cells.length = b.cells.length →
      (∀ p : Int × Int, inbOf b.cols b.rows p →
        (p ∈ V ∧ revealableAt b p →
          cellAtL cells b.cols p.1 p.2 =
            { cellAtL b.cells b.cols p.1 p.2 with is_revealed := true }) ∧
        (¬ (p ∈ V ∧ revealableAt b p) →
          cellAtL cells b.cols p.1 p.2 = cellAtL b.cells b.cols p.1 p.2)) →
      ∀ p : Int × Int, inbOf b.cols b.rows p →
        (((p ∈ V ∨ ∃ q ∈ Q, Relation.ReflTransGen (floodStep b) q p) ∧
            revealableAt b p) →
          cellAtL (floodLoop b.cols b.rows fuel Q V cells count).1 b.cols p.1 p.2 =
            { cellAtL b.cells b.cols p.1 p.2 with is_revealed := true }) ∧
        ((¬ ((p ∈ V ∨ ∃ q ∈ Q, Relation.ReflTransGen (floodStep b) q p) ∧
            revealableAt b p)) →
          cellAtL (floodLoop b.cols b.rows fuel Q V cells count).1 b.cols p.1 p.2 =
            cellAtL b.cells b.cols p.1 p.2) := by
  intro fuel
  induction fuel with
  | zero =>
    intro Q V cells count hfuel hQ hVc hlen hagree p hp
    have hQnil : Q = [] := List.length_eq_zero.mp (by omega)
    subst hQnil
    rw [floodLoop_fuel_zero]
    constructor
    · rintro ⟨hPV, hPOK⟩
      rcases hPV with hV | ⟨q, hq, _⟩
      · exact (hagree p hp).1 ⟨hV, hPOK⟩
      · simp at hq
    · intro hn
      apply (hagree p hp).2
      rintro ⟨hV, hPOK⟩
      exact hn ⟨Or.inl hV, hPOK⟩
  | succ fuel ih =>
    intro Q V cells count hfuel hQ hVc hlen hagree
    cases Q with
    | nil =>
      intro p hp
      rw [floodLoop_nil]
      constructor
      · rintro ⟨hPV, hPOK⟩
        rcases hPV with hV | ⟨q, hq, _⟩
        · exact (hagree p hp).1 ⟨hV, hPOK⟩
        · simp at hq
      · intro hn
        apply (hagree p hp).2
        rintro ⟨hV, hPOK⟩
        exact hn ⟨Or.inl hV, hPOK⟩
    | cons hd rest =>
      obtain ⟨c, r⟩ := hd
      have hinb : inbOf b.cols b.rows (c, r) := hQ _ (List.mem_cons_self ..)
      have hQrest : ∀ p ∈ rest, inbOf b.cols b.rows p :=
        fun p hp => hQ p (List.mem_cons_of_mem _ hp)
      by_cases hmem : (c, r) ∈ V
      · -- dequeued coordinate already visited: skipped
        rw [floodLoop_visited hmem]
        have hVc' : ∀ v ∈ V, zeroAt b v → ∀ q ∈ neighborsOf b.cols b.rows v.1 v.2,
            q ∈ V ∨ q ∈ rest := by
          intro v hv hz q hq
          rcases hVc v hv hz q hq with h | h
          · exact Or.inl h
          · rcases List.mem_cons.mp h with rfl | h'
            · exact Or.inl hmem
            · exact Or.inr h'
        have hfuel' : rest.length + 9 * ((gridOf b.cols b.rows) \ V.toFinset).card
            ≤ fuel := by
          simp only [List.length_cons] at hfuel
          omega
        have IH := ih rest V cells count hfuel' hQrest hVc' hlen hagree
        intro p hp
        obtain ⟨I1, I2⟩ := IH p hp
        have htrans : (p ∈ V ∨ ∃ q ∈ (c, r) :: rest,
            Relation.ReflTransGen (floodStep b) q p) ↔
            (p ∈ V ∨ ∃ q ∈ rest, Relation.ReflTransGen (floodStep b) q p) := by
          constructor
          · rintro (hV | ⟨q, hq, hrtg⟩)
            · exact Or.inl hV
            · rcases List.mem_cons.mp hq with rfl | hq'
              · exact flood_escape b V rest hVc' hrtg hmem
              · exact Or.inr ⟨q, hq', hrtg⟩
          · rintro (hV | ⟨q, hq', hrtg⟩)
            · exact Or.inl hV
            · exact Or.inr ⟨q, List.mem_cons_of_mem _ hq', hrtg⟩
        constructor
        · rintro ⟨hc1, hc2⟩
          exact I1 ⟨htrans.mp hc1, hc2⟩
        · intro hn
          apply I2
          rintro ⟨hc1, hc2⟩
          exact hn ⟨htrans.mpr hc1, hc2⟩
      · -- dequeued coordinate is fresh
        have hstat : cellAtL cells b.cols c r = cellAtL b.cells b.cols c r := by
          apply (hagree (c, r) hinb).2
          rintro ⟨hv, _⟩
          exact hmem hv
        have hgrid_mem : (c, r) ∈ (gridOf b.cols b.rows) \ V.toFinset := by
          rw [Finset.mem_sdiff, mem_gridOf]
          exact ⟨hinb, by simpa using hmem⟩
        have hcard_pos : 1 ≤ ((gridOf b.cols b.rows) \ V.toFinset).card :=
          Finset.card_pos.mpr ⟨_, hgrid_mem⟩
        have hcard_le : ((gridOf b.cols b.rows) \ ((c, r) :: V).toFinset).card ≤
            ((gridOf b.cols b.rows) \ V.toFinset).card - 1 := by
          have hsub : (gridOf b.cols b.rows) \ ((c, r) :: V).toFinset ⊆
              ((gridOf b.cols b.rows) \ V.toFinset).erase (c, r) := by
            intro x hx
            rw [Finset.mem_sdiff] at hx
            obtain ⟨hx1, hx2⟩ := hx
            rw [List.toFinset_cons, Finset.mem_insert] at hx2
            push_neg at hx2
            rw [Finset.mem_erase, Finset.mem_sdiff]
            exact ⟨hx2.1, hx1, hx2.2⟩
          calc ((gridOf b.cols b.rows) \ ((c, r) :: V).toFinset).card
              ≤ (((gridOf b.cols b.rows) \ V.toFinset).erase (c, r)).card :=
                Finset.card_le_card hsub
            _ = ((gridOf b.cols b.rows) \ V.toFinset).card - 1 :=
                Finset.card_erase_of_mem hgrid_mem
        by_cases h1 : ((cellAtL b.cells b.cols c r).is_revealed ||
            (cellAtL b.cells b.cols c r).is_flagged) = true
        · -- already revealed or flagged at the static board: no mutation
          have hnR : ¬ revealableAt b (c, r) := by
            rw [revealableAt_iff]
            rintro ⟨_, hr, hf, _⟩
            rw [hr, hf] at h1
            simp at h1
          have hnZ : ¬ zeroAt b (c, r) := fun hz => hnR hz.1
          rw [floodLoop_skip1 hmem (by rw [hstat]; exact h1)]
          have hVc' : ∀ v ∈ (c, r) :: V, zeroAt b v →
              ∀ q ∈ neighborsOf b.cols b.rows v.1 v.2, q ∈ (c, r) :: V ∨ q ∈ rest := by
            intro v hv hz q hq
            rcases List.mem_cons.mp hv with rfl | hv'
            · exact absurd hz hnZ
            · rcases hVc v hv' hz q hq with h | h
              · exact Or.inl (List.mem_cons_of_mem _ h)
              · rcases List.mem_cons.mp h with rfl | h'
                · exact Or.inl (List.mem_cons_self ..)
                · exact Or.inr h'
          have hfuel' : rest.length +
              9 * ((gridOf b.cols b.rows) \ ((c, r) :: V).toFinset).card ≤ fuel := by
            simp only [List.length_cons] at hfuel
            omega
          have hagree' : ∀ p : Int × Int, inbOf b.cols b.rows p →
              (p ∈ (c, r) :: V ∧ revealableAt b p →
                cellAtL cells b.cols p.1 p.2 =
                  { cellAtL b.cells b.cols p.1 p.2 with is_revealed := true }) ∧
              (¬ (p ∈ (c, r) :: V ∧ revealableAt b p) →
                cellAtL cells b.cols p.1 p.2 = cellAtL b.cells b.cols p.1 p.2) := by
            intro p hp
            by_cases hpc : p = (c, r)
            · subst hpc
              constructor
              · rintro ⟨_, hR⟩
                exact absurd hR hnR
              · intro _
                exact hstat
            · have hmemiff : p ∈ (c, r) :: V ↔ p ∈ V := by
                rw [List.mem_cons]
                simp [hpc]
              obtain ⟨A1, A2⟩ := hagree p hp
              constructor
              · rintro ⟨hpv, hR⟩
                exact A1 ⟨hmemiff.mp hpv, hR⟩
              · intro hn
                apply A2
                rintro ⟨hpv, hR⟩
                exact hn ⟨hmemiff.mpr hpv, hR⟩
          have IH := ih rest ((c, r) :: V) cells count hfuel' hQrest hVc' hlen hagree'
          intro p hp
          obtain ⟨I1, I2⟩ := IH p hp
          have htrans : ((p ∈ V ∨ ∃ q ∈ (c, r) :: rest,
              Relation.ReflTransGen (floodStep b) q p)) ↔
              ((p ∈ (c, r) :: V ∨ ∃ q ∈ rest,
                Relation.ReflTransGen (floodStep b) q p)) := by
            constructor
            · rintro (hV | ⟨q, hq, hrtg⟩)
              · exact Or.inl (List.mem_cons_of_mem _ hV)
              · rcases List.mem_cons.mp hq with rfl | hq'
                · have hpq := rtg_singleton_of_not_zero b hnZ hrtg
                  exact Or.inl (hpq ▸ List.mem_cons_self ..)
                · exact Or.inr ⟨q, hq', hrtg⟩
            · rintro (hV' | ⟨q, hq', hrtg⟩)
              · rcases List.mem_cons.mp hV' with rfl | hV
                · exact Or.inr ⟨(c, r), List.mem_cons_self .., Relation.ReflTransGen.refl⟩
                · exact Or.inl hV
              · exact Or.inr ⟨q, List.mem_cons_of_mem _ hq', hrtg⟩
          constructor
          · rintro ⟨hc1, hc2⟩
            exact I1 ⟨htrans.mp hc1, hc2⟩
          · intro hn
            apply I2
            rintro ⟨hc1, hc2⟩
            exact hn ⟨htrans.mpr hc1, hc2⟩
        · have h1' : ((cellAtL b.cells b.cols c r).is_revealed ||
              (cellAtL b.cells b.cols c r).is_flagged) = false := by
            simpa using h1
          obtain ⟨hrv, hfl⟩ := Bool.or_eq_false_iff.mp h1'
          by_cases h2 : (cellAtL b.cells b.cols c r).is_mine = true
          · -- mine at the static board: skipped, no mutation
            have hnR : ¬ revealableAt b (c, r) := by
              rw [revealableAt_iff]
              rintro ⟨_, _, _, hm⟩
              rw [h2] at hm
              cases hm
            have hnZ : ¬ zeroAt b (c, r) := fun hz => hnR hz.1
            rw [floodLoop_skip2 hmem (by rw [hstat]; exact h1') (by rw [hstat]; exact h2)]
            have hVc' : ∀ v ∈ (c, r) :: V, zeroAt b v →
                ∀ q ∈ neighborsOf b.cols b.rows v.1 v.2, q ∈ (c, r) :: V ∨ q ∈ rest := by
              intro v hv hz q hq
              rcases List.mem_cons.mp hv with rfl | hv'
              · exact absurd hz hnZ
              · rcases hVc v hv' hz q hq with h | h
                · exact Or.inl (List.mem_cons_of_mem _ h)
                · rcases List.mem_cons.mp h with rfl | h'
                  · exact Or.inl (List.mem_cons_self ..)
                  · exact Or.inr h'
            have hfuel' : rest.length +
                9 * ((gridOf b.cols b.rows) \ ((c, r) :: V).toFinset).card ≤ fuel := by
              simp only [List.length_cons] at hfuel
              omega
            have hagree' : ∀ p : Int × Int, inbOf b.cols b.rows p →
                (p ∈ (c, r) :: V ∧ revealableAt b p →
                  cellAtL cells b.cols p.1 p.2 =
                    { cellAtL b.cells b.cols p.1 p.2 with is_revealed := true }) ∧
                (¬ (p ∈ (c, r) :: V ∧ revealableAt b p) →
                  cellAtL cells b.cols p.1 p.2 = cellAtL b.cells b.cols p.1 p.2) := by
              intro p hp
              by_cases hpc : p = (c, r)
              · subst hpc
                constructor
                · rintro ⟨_, hR⟩
                  exact absurd hR hnR
                · intro _
                  exact hstat
              · have hmemiff : p ∈ (c, r) :: V ↔ p ∈ V := by
                  rw [List.mem_cons]
                  simp [hpc]
                obtain ⟨A1, A2⟩ := hagree p hp
                constructor
                · rintro ⟨hpv, hR⟩
                  exact A1 ⟨hmemiff.mp hpv, hR⟩
                · intro hn
                  apply A2
                  rintro ⟨hpv, hR⟩
                  exact hn ⟨hmemiff.mpr hpv, hR⟩
            have IH := ih rest ((c, r) :: V) cells count hfuel' hQrest hVc' hlen hagree'
            intro p hp
            obtain ⟨I1, I2⟩ := IH p hp
            have htrans : ((p ∈ V ∨ ∃ q ∈ (c, r) :: rest,
                Relation.ReflTransGen (floodStep b) q p)) ↔
                ((p ∈ (c, r) :: V ∨ ∃ q ∈ rest,
                  Relation.ReflTransGen (floodStep b) q p)) := by
              constructor
              · rintro (hV | ⟨q, hq, hrtg⟩)
                · exact Or.inl (List.mem_cons_of_mem _ hV)
                · rcases List.mem_cons.mp hq with rfl | hq'
                  · have hpq := rtg_singleton_of_not_zero b hnZ hrtg
                    exact Or.inl (hpq ▸ List.mem_cons_self ..)
                  · exact Or.inr ⟨q, hq', hrtg⟩
              · rintro (hV' | ⟨q, hq', hrtg⟩)
                · rcases List.mem_cons.mp hV' with rfl | hV
                  · exact Or.inr ⟨(c, r), List.mem_cons_self .., Relation.ReflTransGen.refl⟩
                  · exact Or.inl hV
                · exact Or.inr ⟨q, List.mem_cons_of_mem _ hq', hrtg⟩
            constructor
            · rintro ⟨hc1, hc2⟩
              exact I1 ⟨htrans.mp hc1, hc2⟩
            · intro hn
              apply I2
              rintro ⟨hc1, hc2⟩
              exact hn ⟨htrans.mpr hc1, hc2⟩
          · -- fresh revealable cell: it is revealed now
            have h2' : (cellAtL b.cells b.cols c r).is_mine = false := by simpa using h2
            have hR : revealableAt b (c, r) := (revealableAt_iff b (c, r)).mpr
              ⟨hinb, hrv, hfl, h2'⟩
            have hcellen : cells.length = (b.cols * b.rows).toNat := by
              rw [hlen, hlen0]
            have hlen'' : (setRevealedL cells b.cols c r).length = b.cells.length := by
              rw [setRevealedL_length]
              exact hlen
            have hagree'' : ∀ p : Int × Int, inbOf b.cols b.rows p →
                (p ∈ (c, r) :: V ∧ revealableAt b p →
                  cellAtL (setRevealedL cells b.cols c r) b.cols p.1 p.2 =
                    { cellAtL b.cells b.cols p.1 p.2 with is_revealed := true }) ∧
                (¬ (p ∈ (c, r) :: V ∧ revealableAt b p) →
                  cellAtL (setRevealedL cells b.cols c r) b.cols p.1 p.2 =
                    cellAtL b.cells b.cols p.1 p.2) := by
              intro p hp
              rw [cellAtL_setRevealedL hinb hp hcellen]
              by_cases hpc : p = (c, r)
              · subst hpc
                rw [if_pos rfl, hstat]
                constructor
                · intro _
                  rfl
                · intro hn
                  exact absurd ⟨List.mem_cons_self .., hR⟩ hn
              · rw [if_neg hpc]
                have hmemiff : p ∈ (c, r) :: V ↔ p ∈ V := by
                  rw [List.mem_cons]
                  simp [hpc]
                obtain ⟨A1, A2⟩ := hagree p hp
                constructor
                · rintro ⟨hpv, hRp⟩
                  exact A1 ⟨hmemiff.mp hpv, hRp⟩
                · intro hn
                  apply A2
                  rintro ⟨hpv, hRp⟩
                  exact hn ⟨hmemiff.mpr hpv, hRp⟩
            by_cases h3 : (cellAtL b.cells b.cols c r).adjacent = 0
            · -- zero-adjacency: neighbors are enqueued
              have hZ : zeroAt b (c, r) := ⟨hR, h3⟩
              rw [floodLoop_reveal_zero hmem (by rw [hstat]; exact h1')
                (by rw [hstat]; exact h2') (by rw [hstat]; exact h3)]
              have hQ'' : ∀ p ∈ rest ++ (neighborsOf b.cols b.rows c r).filter
                  (fun p => ! decide (p ∈ (c, r) :: V)), inbOf b.cols b.rows p := by
                intro p hp
                rcases List.mem_append.mp hp with hp' | hp'
                · exact hQrest p hp'
                · exact neighborsOf_inb (List.mem_filter.mp hp').1
              have hVc'' : ∀ v ∈ (c, r) :: V, zeroAt b v →
                  ∀ q ∈ neighborsOf b.cols b.rows v.1 v.2, q ∈ (c, r) :: V ∨
                    q ∈ rest ++ (neighborsOf b.cols b.rows c r).filter
                      (fun p => ! decide (p ∈ (c, r) :: V)) := by
                intro v hv hz q hq
                rcases List.mem_cons.mp hv with rfl | hv'
                · by_cases hqv : q ∈ (c, r) :: V
                  · exact Or.inl hqv
                  · refine Or.inr (List.mem_append_right _ ?_)
                    rw [List.mem_filter]
                    exact ⟨hq, by simpa using hqv⟩
                · rcases hVc v hv' hz q hq with h | h
                  · exact Or.inl (List.mem_cons_of_mem _ h)
                  · rcases List.mem_cons.mp h with rfl | h'
                    · exact Or.inl (List.mem_cons_self ..)
                    · exact Or.inr (List.mem_append_left _ h')
              have hfuel'' : (rest ++ (neighborsOf b.cols b.rows c r).filter
                  (fun p => ! decide (p ∈ (c, r) :: V))).length +
                  9 * ((gridOf b.cols b.rows) \ ((c, r) :: V).toFinset).card ≤ fuel := by
                have hQlen : ((neighborsOf b.cols b.rows c r).filter
                    (fun p => ! decide (p ∈ (c, r) :: V))).length ≤ 8 := by
                  have hfle := List.length_filter_le
                    (fun p => ! decide (p ∈ (c, r) :: V)) (neighborsOf b.cols b.rows c r)
                  have hnle := neighborsOf_length_le b.cols b.rows c r
                  omega
                rw [List.length_append]
                simp only [List.length_cons] at hfuel
                omega
              have IH := ih _ _ _ (count + 1) hfuel'' hQ'' hVc'' hlen'' hagree''
              intro p hp
              obtain ⟨I1, I2⟩ := IH p hp
              have htrans : ((p ∈ V ∨ ∃ q ∈ (c, r) :: rest,
                  Relation.ReflTransGen (floodStep b) q p)) ↔
                  ((p ∈ (c, r) :: V ∨
                    ∃ q ∈ rest ++ (neighborsOf b.cols b.rows c r).filter
                      (fun p => ! decide (p ∈ (c, r) :: V)),
                    Relation.ReflTransGen (floodStep b) q p)) := by
                constructor
                · rintro (hV | ⟨q, hq, hrtg⟩)
                  · exact Or.inl (List.mem_cons_of_mem _ hV)
                  · rcases List.mem_cons.mp hq with rfl | hq'
                    · exact flood_escape b ((c, r) :: V) _ hVc'' hrtg
                        (List.mem_cons_self ..)
                    · exact Or.inr ⟨q, List.mem_append_left _ hq', hrtg⟩
                · rintro (hV' | ⟨q, hq, hrtg⟩)
                  · rcases List.mem_cons.mp hV' with rfl | hV
                    · exact Or.inr ⟨(c, r), List.mem_cons_self ..,
                        Relation.ReflTransGen.refl⟩
                    · exact Or.inl hV
                  · rcases List.mem_append.mp hq with hq' | hq'
                    · exact Or.inr ⟨q, List.mem_cons_of_mem _ hq', hrtg⟩
                    · have hqn : q ∈ neighborsOf b.cols b.rows c r :=
                        (List.mem_filter.mp hq').1
                      exact Or.inr ⟨(c, r), List.mem_cons_self ..,
                        Relation.ReflTransGen.head ⟨hZ, hqn⟩ hrtg⟩
              constructor
              · rintro ⟨hc1, hc2⟩
                exact I1 ⟨htrans.mp hc1, hc2⟩
              · intro hn
                apply I2
                rintro ⟨hc1, hc2⟩
                exact hn ⟨htrans.mpr hc1, hc2⟩
            · -- positive adjacency: revealed without propagation
              have hnZ : ¬ zeroAt b (c, r) := by
                rintro ⟨_, hz⟩
                exact h3 hz
              rw [floodLoop_reveal_pos hmem (by rw [hstat]; exact h1')
                (by rw [hstat]; exact h2') (by rw [hstat]; exact h3)]
              have hVc' : ∀ v ∈ (c, r) :: V, zeroAt b v →
                  ∀ q ∈ neighborsOf b.cols b.rows v.1 v.2, q ∈ (c, r) :: V ∨
                    q ∈ rest := by
                intro v hv hz q hq
                rcases List.mem_cons.mp hv with rfl | hv'
                · exact absurd hz hnZ
                · rcases hVc v hv' hz q hq with h | h
                  · exact Or.inl (List.mem_cons_of_mem _ h)
                  · rcases List.mem_cons.mp h with rfl | h'
                    · exact Or.inl (List.mem_cons_self ..)
                    · exact Or.inr h'
              have hfuel' : rest.length +
                  9 * ((gridOf b.cols b.rows) \ ((c, r) :: V).toFinset).card ≤ fuel := by
                simp only [List.length_cons] at hfuel
                omega
              have IH := ih rest ((c, r) :: V) _ (count + 1) hfuel' hQrest hVc' hlen''
                hagree''
              intro p hp
              obtain ⟨I1, I2⟩ := IH p hp
              have htrans : ((p ∈ V ∨ ∃ q ∈ (c, r) :: rest,
                  Relation.ReflTransGen (floodStep b) q p)) ↔
                  ((p ∈ (c, r) :: V ∨ ∃ q ∈ rest,
                    Relation.ReflTransGen (floodStep b) q p)) := by
                constructor
                · rintro (hV | ⟨q, hq, hrtg⟩)
                  · exact Or.inl (List.mem_cons_of_mem _ hV)
                  · rcases List.mem_cons.mp hq with rfl | hq'
                    · have hpq := rtg_singleton_of_not_zero b hnZ hrtg
                      exact Or.inl (hpq ▸ List.mem_cons_self ..)
                    · exact Or.inr ⟨q, hq', hrtg⟩
                · rintro (hV' | ⟨q, hq', hrtg⟩)
                  · rcases List.mem_cons.mp hV' with rfl | hV
                    · exact Or.inr ⟨(c, r), List.mem_cons_self ..,
                        Relation.ReflTransGen.refl⟩
                    · exact Or.inl hV
                  · exact Or.inr ⟨q, List.mem_cons_of_mem _ hq', hrtg⟩
              constructor
              · rintro ⟨hc1, hc2⟩
                exact I1 ⟨htrans.mp hc1, hc2⟩
              · intro hn
                apply I2
                rintro ⟨hc1, hc2⟩
                exact hn ⟨htrans.mpr hc1, hc2⟩

/-! ### Field effects of the board operations -/

theorem place_mines_cols (b : Board) (sh : List (Int × Int) → List (Int × Int))
    (sc sr : Int) : (b.place_mines sh sc sr).cols = b.cols := rfl

theorem place_mines_rows (b : Board) (sh : List (Int × Int) → List (Int × Int))
    (sc sr : Int) : (b.place_mines sh sc sr).rows = b.rows := rfl

theorem place_mines_num_mines (b : Board) (sh : List (Int × Int) → List (Int × Int))
    (sc sr : Int) : (b.place_mines sh sc sr).num_mines = b.num_mines := rfl

theorem place_mines_revealed_count (b : Board)
    (sh : List (Int × Int) → List (Int × Int)) (sc sr : Int) :
    (b.place_mines sh sc sr).revealed_count = b.revealed_count := rfl

theorem place_mines_game_over (b : Board) (sh : List (Int × Int) → List (Int × Int))
    (sc sr : Int) : (b.place_mines sh sc sr).game_over = b.game_over := rfl

theorem place_mines_win (b : Board) (sh : List (Int × Int) → List (Int × Int))
    (sc sr : Int) : (b.place_mines sh sc sr).win = b.win := rfl

theorem place_mines_placed (b : Board) (sh : List (Int × Int) → List (Int × Int))
    (sc sr : Int) : (b.place_mines sh sc sr).mines_placed = true := rfl

theorem reveal_all_mines_game_over (b : Board) :
    (b.reveal_all_mines).game_over = b.game_over := rfl

theorem reveal_all_mines_win (b : Board) : (b.reveal_all_mines).win = b.win := rfl

theorem reveal_all_mines_revealed_count (b : Board) :
    (b.reveal_all_mines).revealed_count = b.revealed_count := rfl

theorem reveal_all_mines_cells_getD (b : Board) (i : Nat) (hi : i < b.cells.length) :
    (b.reveal_all_mines).cells.getD i default =
      if (b.cells.getD i default).is_mine = true then
        { b.cells.getD i default with is_revealed := true }
      else b.cells.getD i default := by
  show ((b.cells.map fun cell =>
    if cell.is_mine then { cell with is_revealed := true } else cell).getD i default) = _
  rw [getD_map_lt _ _ _ hi]

theorem check_win_game_over (b : Board) : (b.check_win).game_over = b.game_over := by
  unfold Board.check_win
  split <;> rfl

theorem check_win_cols (b : Board) : (b.check_win).cols = b.cols := by
  unfold Board.check_win
  split <;> rfl

theorem check_win_rows (b : Board) : (b.check_win).rows = b.rows := by
  unfold Board.check_win
  split <;> rfl

theorem check_win_num_mines (b : Board) : (b.check_win).num_mines = b.num_mines := by
  unfold Board.check_win
  split <;> rfl

theorem check_win_mines_placed (b : Board) :
    (b.check_win).mines_placed = b.mines_placed := by
  unfold Board.check_win
  split <;> rfl

theorem check_win_revealed_count (b : Board) :
    (b.check_win).revealed_count = b.revealed_count := by
  unfold Board.check_win
  split <;> rfl

theorem check_win_win (b : Board) : (b.check_win).win =
    (if (b.revealed_count : Int) = b.cols * b.rows - b.num_mines ∧ b.game_over = false
     then true else b.win) := by
  unfold Board.check_win
  split <;> simp_all

theorem check_win_cells_fired (b : Board)
    (h : (b.revealed_count : Int) = b.cols * b.rows - b.num_mines ∧ b.game_over = false) :
    (b.check_win).cells = b.cells.map fun cell =>
      if cell.is_revealed = false ∧ cell.is_mine = false then
        { cell with is_revealed := true }
      else cell := by
  unfold Board.check_win
  rw [if_pos h]

theorem check_win_cells_not_fired (b : Board)
    (h : ¬ ((b.revealed_count : Int) = b.cols * b.rows - b.num_mines ∧
      b.game_over = false)) : (b.check_win).cells = b.cells := by
  unfold Board.check_win
  rw [if_neg h]

/-! ### Path lemmas for `Board.reveal` -/

theorem reveal_out_of_bounds (b : Board) (sh : List (Int × Int) → List (Int × Int))
    (col row : Int) (h : ¬ b.is_inbounds col row) : b.reveal sh col row = b := by
  unfold Board.reveal
  rw [if_pos h]

theorem reveal_skip (b : Board) (sh : List (Int × Int) → List (Int × Int))
    (col row : Int) (hin : b.is_inbounds col row) (hp : b.mines_placed = true)
    (hskip : ((b.cellAt col row).is_revealed || (b.cellAt col row).is_flagged) = true) :
    b.reveal sh col row = b := by
  unfold Board.reveal
  rw [if_neg (not_not_intro hin)]
  simp only [hp, if_true, hskip]

theorem reveal_mine_hit (b : Board) (sh : List (Int × Int) → List (Int × Int))
    (col row : Int) (hin : b.is_inbounds col row) (hp : b.mines_placed = true)
    (hskip : ((b.cellAt col row).is_revealed || (b.cellAt col row).is_flagged) = false)
    (hmine : (b.cellAt col row).is_mine = true) :
    b.reveal sh col row = Board.reveal_all_mines { b with game_over := true } := by
  unfold Board.reveal
  rw [if_neg (not_not_intro hin)]
  simp only [hp, if_true, hskip, hmine, Bool.false_eq_true, if_false]

theorem reveal_flood (b : Board) (sh : List (Int × Int) → List (Int × Int))
    (col row : Int) (hin : b.is_inbounds col row) (hp : b.mines_placed = true)
    (hskip : ((b.cellAt col row).is_revealed || (b.cellAt col row).is_flagged) = false)
    (hmine : (b.cellAt col row).is_mine = false) :
    b.reveal sh col row = Board.check_win { b with
      cells := (floodLoop b.cols b.rows (9 * (b.cols * b.rows).toNat + 1)
        [(col, row)] [] b.cells b.revealed_count).1,
      revealed_count := (floodLoop b.cols b.rows (9 * (b.cols * b.rows).toNat + 1)
        [(col, row)] [] b.cells b.revealed_count).2 } := by
  unfold Board.reveal
  rw [if_neg (not_not_intro hin)]
  simp only [hp, if_true, hskip, hmine, Bool.false_eq_true, if_false]

theorem reveal_unplaced (b : Board) (sh : List (Int × Int) → List (Int × Int))
    (col row : Int) (hin : b.is_inbounds col row) (hp : b.mines_placed = false) :
    b.reveal sh col row = (b.place_mines sh col row).reveal sh col row := by
  conv_rhs => unfold Board.reveal
  conv_lhs => unfold Board.reveal
  rw [if_neg (not_not_intro hin)]
  have hin' : (b.place_mines sh col row).is_inbounds col row := hin
  rw [if_neg (not_not_intro hin')]
  simp only [hp, Bool.false_eq_true, if_false, place_mines_placed, if_true]

theorem toNat_mul_of_nonneg {a b : Int} (ha : 0 ≤ a) (hb : 0 ≤ b) :
    (a * b).toNat = a.toNat * b.toNat := by
  calc (a * b).toNat = (((a.toNat : Int)) * ((b.toNat : Int))).toNat := by
        rw [Int.toNat_of_nonneg ha, Int.toNat_of_nonneg hb]
    _ = ((a.toNat * b.toNat : Nat) : Int).toNat := by rw [Nat.cast_mul]
    _ = a.toNat * b.toNat := Int.toNat_natCast _

theorem gridOf_card (cols rows : Int) :
    (gridOf cols rows).card = cols.toNat * rows.toNat := by
  unfold gridOf
  rw [Finset.card_product, Int.card_Icc, Int.card_Icc]
  congr 1 <;> omega

theorem cells_map_mono (f : CellState → CellState) (hf : ∀ a, cellMono a (f a)) :
    ∀ l : List CellState, cellsMono l (l.map f) := by
  intro l
  induction l with
  | nil => exact List.Forall₂.nil
  | cons x xs ih => exact List.Forall₂.cons (hf x) ih

theorem check_win_cells_mono (b : Board) : cellsMono b.cells (b.check_win).cells := by
  unfold Board.check_win
  split
  · refine cells_map_mono _ ?_ b.cells
    intro a
    by_cases hc : a.is_revealed = false ∧ a.is_mine = false
    · rw [if_pos hc]
      exact ⟨rfl, rfl, rfl, fun h => rfl⟩
    · rw [if_neg hc]
      exact cellMono_refl a
  · exact cellsMono_refl _

theorem reveal_all_mines_cells_mono (b : Board) :
    cellsMono b.cells (b.reveal_all_mines).cells := by
  refine cells_map_mono _ ?_ b.cells
  intro a
  by_cases hc : a.is_mine = true
  · rw [if_pos hc]
    exact ⟨rfl, rfl, rfl, fun h => rfl⟩
  · rw [if_neg hc]
    exact cellMono_refl a

theorem check_win_cells_length (b : Board) :
    (b.check_win).cells.length = b.cells.length :=
  (cellsMono_length (check_win_cells_mono b)).symm

theorem reveal_all_mines_cells_length (b : Board) :
    (b.reveal_all_mines).cells.length = b.cells.length :=
  (cellsMono_length (reveal_all_mines_cells_mono b)).symm

theorem reveal_cells_mono (b : Board) (sh : List (Int × Int) → List (Int × Int))
    (col row : Int) (hp : b.mines_placed = true) :
    cellsMono b.cells (b.reveal sh col row).cells := by
  by_cases hin : b.is_inbounds col row
  · by_cases hskip : ((b.cellAt col row).is_revealed || (b.cellAt col row).is_flagged)
      = true
    · rw [reveal_skip b sh col row hin hp hskip]
      exact cellsMono_refl _
    · have hskip' : ((b.cellAt col row).is_revealed || (b.cellAt col row).is_flagged)
          = false := by simpa using hskip
      by_cases hmine : (b.cellAt col row).is_mine = true
      · rw [reveal_mine_hit b sh col row hin hp hskip' hmine]
        exact reveal_all_mines_cells_mono { b with game_over := true }
      · have hmine' : (b.cellAt col row).is_mine = false := by simpa using hmine
        rw [reveal_flood b sh col row hin hp hskip' hmine']
        have h1 := floodLoop_mono b.cols b.rows (9 * (b.cols * b.rows).toNat + 1)
          [(col, row)] [] b.cells b.revealed_count
        have h2 := check_win_cells_mono { b with
          cells := (floodLoop b.cols b.rows (9 * (b.cols * b.rows).toNat + 1)
            [(col, row)] [] b.cells b.revealed_count).1,
          revealed_count := (floodLoop b.cols b.rows (9 * (b.cols * b.rows).toNat + 1)
            [(col, row)] [] b.cells b.revealed_count).2 }
        exact cellsMono_trans h1 h2
  · rw [reveal_out_of_bounds b sh col row hin]
    exact cellsMono_refl _

theorem reveal_scalars_placed (b : Board) (sh : List (Int × Int) → List (Int × Int))
    (col row : Int) (hp : b.mines_placed = true) :
    (b.reveal sh col row).cols = b.cols ∧ (b.reveal sh col row).rows = b.rows ∧
    (b.reveal sh col row).num_mines = b.num_mines ∧
    (b.reveal sh col row).mines_placed = true := by
  by_cases hin : b.is_inbounds col row
  · by_cases hskip : ((b.cellAt col row).is_revealed || (b.cellAt col row).is_flagged)
      = true
    · rw [reveal_skip b sh col row hin hp hskip]
      exact ⟨rfl, rfl, rfl, hp⟩
    · have hskip' : ((b.cellAt col row).is_revealed || (b.cellAt col row).is_flagged)
          = false := by simpa using hskip
      by_cases hmine : (b.cellAt col row).is_mine = true
      · rw [reveal_mine_hit b sh col row hin hp hskip' hmine]
        exact ⟨rfl, rfl, rfl, hp⟩
      · have hmine' : (b.cellAt col row).is_mine = false := by simpa using hmine
        rw [reveal_flood b sh col row hin hp hskip' hmine']
        refine ⟨check_win_cols _, check_win_rows _, check_win_num_mines _, ?_⟩
        rw [check_win_mines_placed]
        exact hp
  · rw [reveal_out_of_bounds b sh col row hin]
    exact ⟨rfl, rfl, rfl, hp⟩

/-! ### Flood fill reveals only non-mine cells -/

def cellMonoNM (a b : CellState) : Prop :=
  cellMono a b ∧ (a.is_revealed = false → b.is_revealed = true → a.is_mine = false)

theorem cellMonoNM_refl (a : CellState) : cellMonoNM a a :=
  ⟨cellMono_refl a, fun h1 h2 => by rw [h1] at h2; cases h2⟩

theorem cellMonoNM_trans {a b c : CellState} (h₁ : cellMonoNM a b)
    (h₂ : cellMonoNM b c) : cellMonoNM a c := by
  refine ⟨cellMono_trans h₁.1 h₂.1, ?_⟩
  intro ha hc
  cases hb : b.is_revealed
  · have : b.is_mine = false := h₂.2 hb hc
    rw [← h₁.1.1] at *
    exact this
  · exact h₁.2 ha hb

theorem setRevealedL_monoNM (cells : List CellState) (cols c r : Int)
    (hm : (cellAtL cells cols c r).is_mine = false) :
    List.Forall₂ cellMonoNM cells (setRevealedL cells cols c r) := by
  unfold setRevealedL cellAtL at *
  refine forall₂_set_right cellMonoNM_refl _ _ _ ?_
  exact ⟨⟨rfl, rfl, rfl, fun _ => rfl⟩, fun _ _ => hm⟩

theorem floodLoop_monoNM (cols rows : Int) :
    ∀ (fuel : Nat) (Q V : List (Int × Int)) (cells : List CellState) (count : Nat),
      List.Forall₂ cellMonoNM cells (floodLoop cols rows fuel Q V cells count).1 := by
  intro fuel
  induction fuel with
  | zero =>
    intro Q V cells count
    rw [floodLoop_fuel_zero]
    exact forall₂_refl_of cellMonoNM_refl cells
  | succ fuel ih =>
    intro Q V cells count
    cases Q with
    | nil =>
      rw [floodLoop_nil]
      exact forall₂_refl_of cellMonoNM_refl cells
    | cons p rest =>
      obtain ⟨c, r⟩ := p
      by_cases hmem : (c, r) ∈ V
      · rw [floodLoop_visited hmem]; exact ih ..
      · by_cases h1 : ((cellAtL cells cols c r).is_revealed ||
            (cellAtL cells cols c r).is_flagged) = true
        · rw [floodLoop_skip1 hmem h1]; exact ih ..
        · have h1' : ((cellAtL cells cols c r).is_revealed ||
              (cellAtL cells cols c r).is_flagged) = false := by
            simpa using h1
          by_cases h2 : (cellAtL cells cols c r).is_mine = true
          · rw [floodLoop_skip2 hmem h1' h2]; exact ih ..
          · have h2' : (cellAtL cells cols c r).is_mine = false := by simpa using h2
            by_cases h3 : (cellAtL cells cols c r).adjacent = 0
            · rw [floodLoop_reveal_zero hmem h1' h2' h3]
              exact @forall₂_trans_of cellMonoNM
                (fun _ _ _ hab hbc => cellMonoNM_trans hab hbc) _ _ _
                (setRevealedL_monoNM cells cols c r h2') (ih _ _ _ _)
            · rw [floodLoop_reveal_pos hmem h1' h2' h3]
              exact @forall₂_trans_of cellMonoNM
                (fun _ _ _ hab hbc => cellMonoNM_trans hab hbc) _ _ _
                (setRevealedL_monoNM cells cols c r h2') (ih _ _ _ _)

theorem filter_revealed_nonmine_of_monoNM :
    ∀ {l l' : List CellState}, List.Forall₂ cellMonoNM l l' →
      (l'.filter fun cl => cl.is_revealed && ! cl.is_mine).length =
        (l.filter fun cl => cl.is_revealed && ! cl.is_mine).length +
          newlyRevealedCount l l' := by
  intro l l' h
  induction h with
  | nil => rfl
  | @cons a b l₁ l₂ hab h' ih =>
    have hmine : b.is_mine = a.is_mine := hab.1.1
    simp only [newlyRevealedCount, List.filter_cons, ih]
    by_cases ha : a.is_revealed = true
    · have hb : b.is_revealed = true := hab.1.2.2.2 ha
      have c3 : ¬ (a.is_revealed = false ∧ b.is_revealed = true) := by simp [ha]
      rw [if_neg c3]
      by_cases hm : a.is_mine = true
      · have hbm : b.is_mine = true := by rw [hmine, hm]
        have c1 : ¬ ((b.is_revealed && ! b.is_mine) = true) := by simp [hbm]
        have c2 : ¬ ((a.is_revealed && ! a.is_mine) = true) := by simp [hm]
        rw [if_neg c1, if_neg c2]
        omega
      · have hm' : a.is_mine = false := by simpa using hm
        have hbm : b.is_mine = false := by rw [hmine, hm']
        have c1 : (b.is_revealed && ! b.is_mine) = true := by simp [hb, hbm]
        have c2 : (a.is_revealed && ! a.is_mine) = true := by simp [ha, hm']
        rw [if_pos c1, if_pos c2]
        simp only [List.length_cons]
        omega
    · have ha' : a.is_revealed = false := by simpa using ha
      have c2 : ¬ ((a.is_revealed && ! a.is_mine) = true) := by simp [ha']
      by_cases hb : b.is_revealed = true
      · have hnm : a.is_mine = false := hab.2 ha' hb
        have hbm : b.is_mine = false := by rw [hmine, hnm]
        have c1 : (b.is_revealed && ! b.is_mine) = true := by simp [hb, hbm]
        have c3 : a.is_revealed = false ∧ b.is_revealed = true := ⟨ha', hb⟩
        rw [if_pos c1, if_neg c2, if_pos c3]
        simp only [List.length_cons]
        omega
      · have hb' : b.is_revealed = false := by simpa using hb
        have c1 : ¬ ((b.is_revealed && ! b.is_mine) = true) := by simp [hb']
        have c3 : ¬ (a.is_revealed = false ∧ b.is_revealed = true) := by simp [hb']
        rw [if_neg c1, if_neg c2, if_neg c3]
        omega

theorem check_win_cells_eq (b : Board)
    (hlen : b.cells.length = (b.cols * b.rows).toNat)
    (hm : ((b.cells.filter fun cl => cl.is_mine).length : Int) = b.num_mines)
    (hc : b.revealed_count =
      (b.cells.filter fun cl => cl.is_revealed && ! cl.is_mine).length) :
    (b.check_win).cells = b.cells := by
  by_cases hfire : (b.revealed_count : Int) = b.cols * b.rows - b.num_mines ∧
      b.game_over = false
  · rw [check_win_cells_fired b hfire]
    apply map_eq_self_of_mem
    intro a ha
    by_cases hmine : a.is_mine = true
    · rw [if_neg]
      rintro ⟨_, hx⟩
      rw [hmine] at hx
      cases hx
    · have hrev : a.is_revealed = true := by
        have hsplit := length_filter_add_length_filter_not b.cells
          (fun cl => cl.is_mine)
        have himp : ∀ cl : CellState,
            (cl.is_revealed && ! cl.is_mine) = true → (! cl.is_mine) = true := by
          intro cl hcl
          simp only [Bool.and_eq_true] at hcl
          exact hcl.2
        have hle : ((b.cells.filter fun cl => ! cl.is_mine).length ≤
            (b.cells.filter fun cl => cl.is_revealed && ! cl.is_mine).length) := by
          obtain ⟨hcount, _⟩ := hfire
          omega
        have hall := all_of_filter_length_le b.cells
          (fun cl => cl.is_revealed && ! cl.is_mine) (fun cl => ! cl.is_mine)
          himp hle a ha (by simpa using hmine)
        simp only [Bool.and_eq_true] at hall
        exact hall.1
      rw [if_neg]
      rintro ⟨hx, _⟩
      rw [hrev] at hx
      cases hx
  · exact check_win_cells_not_fired b hfire

/-! ### Decomposing reachability into region and border -/

theorem rtg_pok_iff_region_border (b : Board) {t : Int × Int} (hZ : zeroAt b t)
    (p : Int × Int) :
    (Relation.ReflTransGen (floodStep b) t p ∧ revealableAt b p) ↔
      (zeroRegion b t p ∨ zeroBorder b t p) := by
  constructor
  · rintro ⟨hrtg, hPOK⟩
    by_cases hz : zeroAt b p
    · exact Or.inl ⟨hrtg, hz⟩
    · rcases Relation.ReflTransGen.cases_tail hrtg with rfl | ⟨x, hx, hstep⟩
      · exact absurd hZ hz
      · exact Or.inr ⟨hPOK, x, ⟨hx, hstep.1⟩, hstep.2⟩
  · rintro (⟨hrtg, hz⟩ | ⟨hPOK, x, ⟨hx, hzx⟩, hnb⟩)
    · exact ⟨hrtg, hz.1⟩
    · exact ⟨hx.trans (Relation.ReflTransGen.single ⟨hzx, hnb⟩), hPOK⟩

theorem rtg_pok_iff_singleton (b : Board) {t : Int × Int} (hnz : ¬ zeroAt b t)
    (hR : revealableAt b t) (p : Int × Int) :
    (Relation.ReflTransGen (floodStep b) t p ∧ revealableAt b p) ↔ p = t := by
  constructor
  · rintro ⟨hrtg, _⟩
    exact rtg_singleton_of_not_zero b hnz hrtg
  · rintro rfl
    exact ⟨Relation.ReflTransGen.refl, hR⟩

theorem reveal_newly_char (b : Board) (sh : List (Int × Int) → List (Int × Int))
    (col row : Int)
    (hp : b.mines_placed = true)
    (hlen : b.cells.length = (b.cols * b.rows).toNat)
    (hin : b.is_inbounds col row)
    (hrev : (b.cellAt col row).is_revealed = false)
    (hflag : (b.cellAt col row).is_flagged = false)
    (hmine : (b.cellAt col row).is_mine = false)
    (hm : ((b.cells.filter fun cl => cl.is_mine).length : Int) = b.num_mines)
    (hc : b.revealed_count =
      (b.cells.filter fun cl => cl.is_revealed && ! cl.is_mine).length) :
    (∀ p : Int × Int, inbOf b.cols b.rows p →
      (newlyRevealed b (b.reveal sh col row) p ↔
        Relation.ReflTransGen (floodStep b) (col, row) p ∧ revealableAt b p)) ∧
    (b.reveal sh col row).revealed_count =
      b.revealed_count + newlyRevealedCount b.cells (b.reveal sh col row).cells := by
  have hskip : ((b.cellAt col row).is_revealed || (b.cellAt col row).is_flagged)
      = false := by
    rw [hrev, hflag]
    rfl
  rw [reveal_flood b sh col row hin hp hskip hmine]
  set F := floodLoop b.cols b.rows (9 * (b.cols * b.rows).toNat + 1)
    [(col, row)] [] b.cells b.revealed_count with hF
  have hcols_pos : 0 < b.cols := by
    obtain ⟨h1, h2, _, _⟩ := hin
    omega
  have hrows_pos : 0 < b.rows := by
    obtain ⟨_, _, h3, h4⟩ := hin
    omega
  have hgridcard : (gridOf b.cols b.rows).card = (b.cols * b.rows).toNat := by
    rw [gridOf_card, ← toNat_mul_of_nonneg (le_of_lt hcols_pos) (le_of_lt hrows_pos)]
  have hfuel : ([(col, row)] : List (Int × Int)).length +
      9 * ((gridOf b.cols b.rows) \ ([] : List (Int × Int)).toFinset).card ≤
      9 * (b.cols * b.rows).toNat + 1 := by
    simp only [List.length_cons, List.length_nil, List.toFinset_nil,
      Finset.sdiff_empty, hgridcard]
    omega
  have hQ : ∀ p ∈ [(col, row)], inbOf b.cols b.rows p := by
    intro p hp'
    simp only [List.mem_singleton] at hp'
    subst hp'
    exact hin
  have hVc : ∀ v ∈ ([] : List (Int × Int)), zeroAt b v →
      ∀ q ∈ neighborsOf b.cols b.rows v.1 v.2, q ∈ ([] : List (Int × Int)) ∨
        q ∈ [(col, row)] := by
    intro v hv
    simp at hv
  have hagree : ∀ p : Int × Int, inbOf b.cols b.rows p →
      (p ∈ ([] : List (Int × Int)) ∧ revealableAt b p →
        cellAtL b.cells b.cols p.1 p.2 =
          { cellAtL b.cells b.cols p.1 p.2 with is_revealed := true }) ∧
      (¬ (p ∈ ([] : List (Int × Int)) ∧ revealableAt b p) →
        cellAtL b.cells b.cols p.1 p.2 = cellAtL b.cells b.cols p.1 p.2) := by
    intro p hp'
    constructor
    · rintro ⟨hv, _⟩
      simp at hv
    · intro _
      rfl
  have CHAR := floodLoop_char b hlen (9 * (b.cols * b.rows).toNat + 1)
    [(col, row)] [] b.cells b.revealed_count hfuel hQ hVc rfl hagree
  have hcount := floodLoop_count b.cols b.rows (9 * (b.cols * b.rows).toNat + 1)
    [(col, row)] [] b.cells b.revealed_count hQ hlen
  have hmono := floodLoop_mono b.cols b.rows (9 * (b.cols * b.rows).toNat + 1)
    [(col, row)] [] b.cells b.revealed_count
  have hmonoNM := floodLoop_monoNM b.cols b.rows (9 * (b.cols * b.rows).toNat + 1)
    [(col, row)] [] b.cells b.revealed_count
  have hmid_m : ((F.1.filter fun cl => cl.is_mine).length : Int) = b.num_mines := by
    rw [filter_length_eq_of_forall₂ (fun cl => cl.is_mine)
      (fun a b' hab => hab.1) hmono]
    exact hm
  have hmid_c : F.2 = (F.1.filter fun cl => cl.is_revealed && ! cl.is_mine).length := by
    rw [filter_revealed_nonmine_of_monoNM hmonoNM, ← hc]
    exact hcount
  have hmid_len : F.1.length = (b.cols * b.rows).toNat := by
    rw [floodLoop_length]
    exact hlen
  have hcw : (Board.check_win { b with cells := F.1, revealed_count := F.2 }).cells
      = F.1 :=
    check_win_cells_eq { b with cells := F.1, revealed_count := F.2 }
      hmid_len hmid_m hmid_c
  have hcellAt : ∀ p : Int × Int,
      (Board.check_win { b with cells := F.1, revealed_count := F.2 }).cellAt p.1 p.2
        = cellAtL F.1 b.cols p.1 p.2 := by
    intro p
    unfold Board.cellAt
    rw [hcw, check_win_cols]
  constructor
  · intro p hp'
    obtain ⟨C1, C2⟩ := CHAR p hp'
    unfold newlyRevealed
    rw [hcellAt p]
    constructor
    · rintro ⟨hrev', hrev0⟩
      by_contra hnc
      have heq := C2 (by
        rintro ⟨hor, hPOK⟩
        rcases hor with hfalse | ⟨q, hq, hrtg⟩
        · simp at hfalse
        · simp only [List.mem_singleton] at hq
          subst hq
          exact hnc ⟨hrtg, hPOK⟩)
      rw [heq] at hrev'
      unfold Board.cellAt at hrev0
      rw [hrev'] at hrev0
      cases hrev0
    · rintro ⟨hrtg, hPOK⟩
      have heq := C1 ⟨Or.inr ⟨(col, row), List.mem_singleton.mpr rfl, hrtg⟩, hPOK⟩
      rw [heq]
      exact ⟨rfl, hPOK.2.1⟩
  · rw [check_win_revealed_count]
    show F.2 = b.revealed_count + newlyRevealedCount b.cells
      (Board.check_win { b with cells := F.1, revealed_count := F.2 }).cells
    rw [hcw]
    exact hcount

/-! ### Characterizing mine placement -/

theorem cellAtL_setMineL {cells : List CellState} {cols rows : Int}
    {q p : Int × Int} (hq : inbOf cols rows q) (hp : inbOf cols rows p)
    (hlen : cells.length = (cols * rows).toNat) :
    cellAtL (setMineL cells cols q) cols p.1 p.2 =
      if p = q then { cellAtL cells cols q.1 q.2 with is_mine := true }
      else cellAtL cells cols p.1 p.2 := by
  unfold setMineL cellAtL
  by_cases hpc : p = q
  · subst hpc
    rw [if_pos rfl]
    exact getD_set_self _ _ _ (by rw [hlen]; exact idxNat_lt hq)
  · rw [if_neg hpc]
    exact getD_set_ne _ _ _ _ (fun hcon => hpc (idxNat_inj hq hp hcon).symm)

theorem setMineL_length (cells : List CellState) (cols : Int) (q : Int × Int) :
    (setMineL cells cols q).length = cells.length := by
  unfold setMineL
  exact List.length_set ..

theorem foldl_setMine_length (cols : Int) (L : List (Int × Int)) :
    ∀ cs : List CellState,
      (L.foldl (fun cs q => setMineL cs cols q) cs).length = cs.length := by
  induction L with
  | nil => intro cs; rfl
  | cons q L' ih =>
    intro cs
    rw [List.foldl_cons, ih, setMineL_length]

theorem foldl_setMine_cellAt (cols rows : Int) (L : List (Int × Int))
    (hL : ∀ q ∈ L, inbOf cols rows q) :
    ∀ (cs : List CellState), cs.length = (cols * rows).toNat →
    ∀ p : Int × Int, inbOf cols rows p →
      cellAtL (L.foldl (fun cs q => setMineL cs cols q) cs) cols p.1 p.2 =
        (if p ∈ L then { cellAtL cs cols p.1 p.2 with is_mine := true }
         else cellAtL cs cols p.1 p.2) := by
  induction L with
  | nil =>
    intro cs _ p _
    simp
  | cons q L' ih =>
    intro cs hlen p hp
    have hq : inbOf cols rows q := hL q (List.mem_cons_self ..)
    have hL' : ∀ x ∈ L', inbOf cols rows x := fun x hx => hL x (List.mem_cons_of_mem _ hx)
    have hlen' : (setMineL cs cols q).length = (cols * rows).toNat := by
      rw [setMineL_length]; exact hlen
    rw [List.foldl_cons, ih hL' (setMineL cs cols q) hlen' p hp]
    rw [cellAtL_setMineL hq hp hlen]
    by_cases hpq : p = q
    · subst hpq
      rw [if_pos rfl]
      by_cases hpl : p ∈ L'
      · rw [if_pos hpl, if_pos (List.mem_cons_self ..)]
      · rw [if_neg hpl, if_pos (List.mem_cons_self ..)]
    · rw [if_neg hpq]
      by_cases hpl : p ∈ L'
      · rw [if_pos hpl, if_pos (List.mem_cons_of_mem _ hpl)]
      · rw [if_neg hpl, if_neg (by
          rw [List.mem_cons]
          rintro (h | h)
          · exact hpq h
          · exact hpl h)]

theorem foldl_setMine_count (cols rows : Int) (L : List (Int × Int)) :
    ∀ cs : List CellState, cs.length = (cols * rows).toNat → L.Nodup →
      (∀ q ∈ L, inbOf cols rows q) →
      (∀ q ∈ L, (cellAtL cs cols q.1 q.2).is_mine = false) →
      ((L.foldl (fun cs q => setMineL cs cols q) cs).filter
        (fun cl => cl.is_mine)).length =
        L.length + (cs.filter (fun cl => cl.is_mine)).length := by
  induction L with
  | nil =>
    intro cs _ _ _ _
    simp
  | cons q L' ih =>
    intro cs hlen hnodup hL hclean
    have hq : inbOf cols rows q := hL q (List.mem_cons_self ..)
    have hL' : ∀ x ∈ L', inbOf cols rows x := fun x hx => hL x (List.mem_cons_of_mem _ hx)
    have hlen' : (setMineL cs cols q).length = (cols * rows).toNat := by
      rw [setMineL_length]; exact hlen
    have hnodup' : L'.Nodup := hnodup.of_cons
    have hqnotin : q ∉ L' := by
      intro hx
      exact (List.nodup_cons.mp hnodup).1 hx
    have hclean' : ∀ x ∈ L', (cellAtL (setMineL cs cols q) cols x.1 x.2).is_mine
        = false := by
      intro x hx
      rw [cellAtL_setMineL hq (hL' x hx) hlen]
      rw [if_neg (show ¬ x = q from fun hc => hqnotin (hc ▸ hx))]
      exact hclean x (List.mem_cons_of_mem _ hx)
    rw [List.foldl_cons, ih (setMineL cs cols q) hlen' hnodup' hL' hclean']
    have hone : ((setMineL cs cols q).filter (fun cl => cl.is_mine)).length =
        (cs.filter (fun cl => cl.is_mine)).length + 1 := by
      unfold setMineL cellAtL
      apply filter_length_set_true
      · rw [hlen]; exact idxNat_lt hq
      · exact hclean q (List.mem_cons_self ..)
      · rfl
    rw [hone]
    simp only [List.length_cons]
    omega

def cellMRF (a b : CellState) : Prop :=
  b.is_mine = a.is_mine ∧ b.is_revealed = a.is_revealed ∧ b.is_flagged = a.is_flagged

theorem cellMRF_refl (a : CellState) : cellMRF a a := ⟨rfl, rfl, rfl⟩

theorem cellMRF_trans {a b c : CellState} (h₁ : cellMRF a b) (h₂ : cellMRF b c) :
    cellMRF a c :=
  ⟨h₂.1.trans h₁.1, h₂.2.1.trans h₁.2.1, h₂.2.2.trans h₁.2.2⟩

theorem adj_pass_forall₂ (b : Board) (cs0 : List CellState) :
    List.Forall₂ cellMRF cs0 ((allPositionsOf b.cols b.rows).foldl
      (fun cs p =>
        if (cellAtL cs b.cols p.1 p.2).is_mine then cs
        else cs.set (p.2 * b.cols + p.1).toNat
          { cellAtL cs b.cols p.1 p.2 with
            adjacent := ((b.neighbors p.1 p.2).filter
              (fun q => (cellAtL cs b.cols q.1 q.2).is_mine)).length })
      cs0) := by
  refine @foldl_forall₂ (Int × Int) cellMRF
    (fun _ _ _ hab hbc => cellMRF_trans hab hbc) cellMRF_refl _ ?_
    (allPositionsOf b.cols b.rows) cs0
  intro cs p
  by_cases hc : (cellAtL cs b.cols p.1 p.2).is_mine = true
  · rw [if_pos hc]
    exact forall₂_refl_of cellMRF_refl cs
  · rw [if_neg hc]
    unfold cellAtL
    exact forall₂_set_right cellMRF_refl _ _ _ ⟨rfl, rfl, rfl⟩

theorem place_mines_length (b : Board) (sh : List (Int × Int) → List (Int × Int))
    (sc sr : Int) : (b.place_mines sh sc sr).cells.length = b.cells.length := by
  unfold Board.place_mines
  have h1 := adj_pass_forall₂ b ((b.minePositions sh sc sr).foldl
    (fun cs p => setMineL cs b.cols p) b.cells)
  have h2 : ((b.minePositions sh sc sr).foldl
      (fun cs p => setMineL cs b.cols p) b.cells).length = b.cells.length :=
    foldl_setMine_length b.cols _ b.cells
  simp only []
  rw [← h1.length_eq, h2]

theorem place_mines_cells_def (b : Board) (sh : List (Int × Int) → List (Int × Int))
    (sc sr : Int) :
    (b.place_mines sh sc sr).cells = (allPositionsOf b.cols b.rows).foldl
      (fun cs p =>
        if (cellAtL cs b.cols p.1 p.2).is_mine then cs
        else cs.set (p.2 * b.cols + p.1).toNat
          { cellAtL cs b.cols p.1 p.2 with
            adjacent := ((b.neighbors p.1 p.2).filter
              (fun q => (cellAtL cs b.cols q.1 q.2).is_mine)).length })
      ((b.minePositions sh sc sr).foldl (fun cs p => setMineL cs b.cols p) b.cells)
      := rfl

theorem place_mines_cell_fields (b : Board) (sh : List (Int × Int) → List (Int × Int))
    (sc sr : Int) (hlen : b.cells.length = (b.cols * b.rows).toNat)
    (hPos : ∀ q ∈ b.minePositions sh sc sr, inbOf b.cols b.rows q)
    (p : Int × Int) (hp : inbOf b.cols b.rows p) :
    ((b.place_mines sh sc sr).cellAt p.1 p.2).is_mine =
      (decide (p ∈ b.minePositions sh sc sr) || (b.cellAt p.1 p.2).is_mine) ∧
    ((b.place_mines sh sc sr).cellAt p.1 p.2).is_revealed =
      (b.cellAt p.1 p.2).is_revealed ∧
    ((b.place_mines sh sc sr).cellAt p.1 p.2).is_flagged =
      (b.cellAt p.1 p.2).is_flagged := by
  have hmined := foldl_setMine_cellAt b.cols b.rows (b.minePositions sh sc sr)
    hPos b.cells hlen p hp
  have hadj := adj_pass_forall₂ b ((b.minePositions sh sc sr).foldl
    (fun cs q => setMineL cs b.cols q) b.cells)
  have hMRF : cellMRF
      (cellAtL ((b.minePositions sh sc sr).foldl
        (fun cs q => setMineL cs b.cols q) b.cells) b.cols p.1 p.2)
      (cellAtL ((b.place_mines sh sc sr).cells) b.cols p.1 p.2) := by
    rw [place_mines_cells_def]
    unfold cellAtL
    exact forall₂_getD_of (cellMRF_refl default) hadj _
  obtain ⟨hM, hR, hF⟩ := hMRF
  have hcell : (b.place_mines sh sc sr).cellAt p.1 p.2 =
      cellAtL ((b.place_mines sh sc sr).cells) b.cols p.1 p.2 := rfl
  rw [hcell, hM, hR, hF, hmined]
  by_cases hmem : p ∈ b.minePositions sh sc sr
  · rw [if_pos hmem]
    refine ⟨?_, rfl, rfl⟩
    simp [hmem]
  · rw [if_neg hmem]
    refine ⟨?_, rfl, rfl⟩
    have hd : (decide (p ∈ b.minePositions sh sc sr)) = false := by simp [hmem]
    rw [hd, Bool.false_or]
    rfl

theorem minePositions_subset_pool (b : Board)
    (sh : List (Int × Int) → List (Int × Int)) (sc sr : Int) (h0 : 0 ≤ b.num_mines)
    (hsub : ∀ x ∈ sh (b.minePool sc sr), x ∈ b.minePool sc sr) :
    ∀ x ∈ b.minePositions sh sc sr, x ∈ b.minePool sc sr := by
  intro x hx
  unfold Board.minePositions pythonSliceTo at hx
  rw [if_pos h0] at hx
  exact hsub x (List.take_subset _ _ hx)

theorem minePositions_inb (b : Board) (sh : List (Int × Int) → List (Int × Int))
    (sc sr : Int) (h0 : 0 ≤ b.num_mines)
    (hsub : ∀ x ∈ sh (b.minePool sc sr), x ∈ b.minePool sc sr) :
    ∀ q ∈ b.minePositions sh sc sr, inbOf b.cols b.rows q :=
  fun q hq => mem_minePool_inb (minePositions_subset_pool b sh sc sr h0 hsub q hq)

theorem minePositions_not_safe (b : Board) (sh : List (Int × Int) → List (Int × Int))
    (sc sr : Int) (h0 : 0 ≤ b.num_mines)
    (hsub : ∀ x ∈ sh (b.minePool sc sr), x ∈ b.minePool sc sr) :
    ∀ q ∈ b.minePositions sh sc sr, ¬ q ∈ (sc, sr) :: b.neighbors sc sr :=
  fun q hq =>
    mem_minePool_not_forbidden (minePositions_subset_pool b sh sc sr h0 hsub q hq)

theorem minePositions_nodup (b : Board) (sh : List (Int × Int) → List (Int × Int))
    (sc sr : Int) (h0 : 0 ≤ b.num_mines)
    (hperm : (sh (b.minePool sc sr)).Perm (b.minePool sc sr)) :
    (b.minePositions sh sc sr).Nodup := by
  unfold Board.minePositions pythonSliceTo
  rw [if_pos h0]
  exact List.Nodup.sublist (List.take_sublist ..)
    (hperm.nodup_iff.mpr (minePool_nodup b sc sr))

theorem minePositions_length_eq (b : Board)
    (sh : List (Int × Int) → List (Int × Int)) (sc sr : Int) (h0 : 0 ≤ b.num_mines)
    (hperm : (sh (b.minePool sc sr)).Perm (b.minePool sc sr))
    (hfit : b.num_mines.toNat ≤ (b.minePool sc sr).length) :
    (b.minePositions sh sc sr).length = b.num_mines.toNat := by
  unfold Board.minePositions pythonSliceTo
  rw [if_pos h0, List.length_take, hperm.length_eq]
  omega

/-! ### The freshly constructed board -/

theorem init_cells_length (cols rows mines : Int) :
    (Board.init cols rows mines).cells.length = rows.toNat * cols.toNat := by
  unfold Board.init
  simp only []
  rw [List.length_flatten, List.map_map]
  have h : (List.length ∘ fun _ : Nat =>
      (List.range cols.toNat).map fun _ : Nat => ({} : CellState)) =
      fun _ : Nat => cols.toNat := by
    funext r
    simp
  rw [h, sum_map_const_range]

theorem init_cells_all_default (cols rows mines : Int) :
    ∀ cl ∈ (Board.init cols rows mines).cells, cl = default := by
  intro cl hcl
  unfold Board.init at hcl
  simp only [List.mem_flatten, List.mem_map] at hcl
  obtain ⟨l, ⟨r, _, rfl⟩, hcl⟩ := hcl
  simp only [List.mem_map] at hcl
  obtain ⟨c, _, rfl⟩ := hcl
  rfl

theorem getD_default_of_all {l : List CellState} (h : ∀ x ∈ l, x = default)
    (i : Nat) : l.getD i default = default := by
  induction l generalizing i with
  | nil => rfl
  | cons x xs ih =>
    cases i with
    | zero => exact h x (List.mem_cons_self ..)
    | succ j => exact ih (fun y hy => h y (List.mem_cons_of_mem _ hy)) j

theorem init_cellAt (cols rows mines : Int) (p : Int × Int) :
    (Board.init cols rows mines).cellAt p.1 p.2 = default := by
  unfold Board.cellAt cellAtL
  exact getD_default_of_all (init_cells_all_default cols rows mines) _

theorem init_hlen (cols rows mines : Int) (hc : 0 < cols) (hr : 0 < rows) :
    (Board.init cols rows mines).cells.length =
      ((Board.init cols rows mines).cols * (Board.init cols rows mines).rows).toNat := by
  rw [init_cells_length]
  show rows.toNat * cols.toNat = (cols * rows).toNat
  rw [toNat_mul_of_nonneg (by omega) (by omega)]
  exact Nat.mul_comm ..

/-! ### Toggle flag -/

theorem toggle_flag_oob (b : Board) (col row : Int) (h : ¬ b.is_inbounds col row) :
    b.toggle_flag col row = b := by
  unfold Board.toggle_flag
  rw [if_pos h]

theorem toggle_flag_revealed (b : Board) (col row : Int)
    (hin : b.is_inbounds col row) (hrev : (b.cellAt col row).is_revealed = true) :
    b.toggle_flag col row = b := by
  unfold Board.toggle_flag
  rw [if_neg (not_not_intro hin)]
  simp only [hrev, if_true]

theorem toggle_flag_set (b : Board) (col row : Int) (hin : b.is_inbounds col row)
    (hrev : (b.cellAt col row).is_revealed = false) :
    b.toggle_flag col row =
      { b with
        cells := b.cells.set (b.index col row).toNat
            { b.cellAt col row with is_flagged := ! (b.cellAt col row).is_flagged } } := by
  unfold Board.toggle_flag
  rw [if_neg (not_not_intro hin)]
  simp only [hrev, Bool.false_eq_true, if_false]

theorem toggle_flag_scalars (b : Board) (col row : Int) :
    (b.toggle_flag col row).cols = b.cols ∧ (b.toggle_flag col row).rows = b.rows ∧
    (b.toggle_flag col row).num_mines = b.num_mines ∧
    (b.toggle_flag col row).mines_placed = b.mines_placed ∧
    (b.toggle_flag col row).revealed_count = b.revealed_count ∧
    (b.toggle_flag col row).game_over = b.game_over ∧
    (b.toggle_flag col row).win = b.win := by
  by_cases h : ¬ b.is_inbounds col row
  · rw [toggle_flag_oob b col row h]
    exact ⟨rfl, rfl, rfl, rfl, rfl, rfl, rfl⟩
  · rw [not_not] at h
    by_cases hrev : (b.cellAt col row).is_revealed = true
    · rw [toggle_flag_revealed b col row h hrev]
      exact ⟨rfl, rfl, rfl, rfl, rfl, rfl, rfl⟩
    · have hrev' : (b.cellAt col row).is_revealed = false := by simpa using hrev
      rw [toggle_flag_set b col row h hrev']
      exact ⟨rfl, rfl, rfl, rfl, rfl, rfl, rfl⟩

theorem getD_set_preserves (l : List CellState) (j : Nat) (v : CellState)
    (hv : v.is_mine = (l.getD j default).is_mine ∧
      v.is_revealed = (l.getD j default).is_revealed ∧
      v.adjacent = (l.getD j default).adjacent) :
    ∀ i : Nat,
      ((l.set j v).getD i default).is_mine = (l.getD i default).is_mine ∧
      ((l.set j v).getD i default).is_revealed = (l.getD i default).is_revealed ∧
      ((l.set j v).getD i default).adjacent = (l.getD i default).adjacent := by
  induction l generalizing j with
  | nil => intro i; exact ⟨rfl, rfl, rfl⟩
  | cons x xs ih =>
    intro i
    cases j with
    | zero =>
      cases i with
      | zero => exact hv
      | succ i' => exact ⟨rfl, rfl, rfl⟩
    | succ j' =>
      cases i with
      | zero => exact ⟨rfl, rfl, rfl⟩
      | succ i' => exact ih j' hv i'

theorem toggle_flag_cells_fields (b : Board) (col row : Int) :
    ∀ i : Nat,
      ((b.toggle_flag col row).cells.getD i default).is_mine =
        (b.cells.getD i default).is_mine ∧
      ((b.toggle_flag col row).cells.getD i default).is_revealed =
        (b.cells.getD i default).is_revealed ∧
      ((b.toggle_flag col row).cells.getD i default).adjacent =
        (b.cells.getD i default).adjacent := by
  intro i
  by_cases h : ¬ b.is_inbounds col row
  · rw [toggle_flag_oob b col row h]
    exact ⟨rfl, rfl, rfl⟩
  · rw [not_not] at h
    by_cases hrev : (b.cellAt col row).is_revealed = true
    · rw [toggle_flag_revealed b col row h hrev]
      exact ⟨rfl, rfl, rfl⟩
    · have hrev' : (b.cellAt col row).is_revealed = false := by simpa using hrev
      rw [toggle_flag_set b col row h hrev']
      exact getD_set_preserves b.cells (b.index col row).toNat
        { b.cellAt col row with is_flagged := ! (b.cellAt col row).is_flagged }
        ⟨rfl, rfl, rfl⟩ i

/-! ### Reveal-level consequences -/

theorem reveal_cells_fields_placed (b : Board)
    (sh : List (Int × Int) → List (Int × Int)) (col row : Int)
    (hp : b.mines_placed = true) (i : Nat) :
    ((b.reveal sh col row).cells.getD i default).is_mine =
      (b.cells.getD i default).is_mine ∧
    ((b.reveal sh col row).cells.getD i default).is_flagged =
      (b.cells.getD i default).is_flagged ∧
    ((b.reveal sh col row).cells.getD i default).adjacent =
      (b.cells.getD i default).adjacent := by
  have hmono := reveal_cells_mono b sh col row hp
  unfold cellsMono at hmono
  have h := forall₂_getD_of (cellMono_refl default) hmono i
  exact ⟨h.1, h.2.1, h.2.2.1⟩

theorem reveal_is_mine_cellAt (b : Board)
    (sh : List (Int × Int) → List (Int × Int)) (col row : Int)
    (hp : b.mines_placed = true) (p : Int × Int) :
    ((b.reveal sh col row).cellAt p.1 p.2).is_mine = (b.cellAt p.1 p.2).is_mine := by
  have hcols := (reveal_scalars_placed b sh col row hp).1
  show (cellAtL (b.reveal sh col row).cells (b.reveal sh col row).cols p.1 p.2).is_mine
    = (cellAtL b.cells b.cols p.1 p.2).is_mine
  rw [hcols]
  unfold cellAtL
  exact (reveal_cells_fields_placed b sh col row hp _).1

theorem reveal_win_char (b : Board) (sh : List (Int × Int) → List (Int × Int))
    (col row : Int) (hp : b.mines_placed = true) (hin : b.is_inbounds col row)
    (hrev : (b.cellAt col row).is_revealed = false)
    (hflag : (b.cellAt col row).is_flagged = false)
    (hmine : (b.cellAt col row).is_mine = false) :
    ((b.reveal sh col row).win = true ↔
      (((b.reveal sh col row).revealed_count : Int) = b.cols * b.rows - b.num_mines ∧
        (b.reveal sh col row).game_over = false) ∨ b.win = true) ∧
    (b.reveal sh col row).game_over = b.game_over := by
  have hskip : ((b.cellAt col row).is_revealed || (b.cellAt col row).is_flagged)
      = false := by
    rw [hrev, hflag]
    rfl
  rw [reveal_flood b sh col row hin hp hskip hmine]
  rw [check_win_win, check_win_revealed_count, check_win_game_over]
  constructor
  · show (if ((floodLoop b.cols b.rows (9 * (b.cols * b.rows).toNat + 1)
        [(col, row)] [] b.cells b.revealed_count).2 : Int) =
          b.cols * b.rows - b.num_mines ∧ b.game_over = false
      then true else b.win) = true ↔
      (((floodLoop b.cols b.rows (9 * (b.cols * b.rows).toNat + 1)
        [(col, row)] [] b.cells b.revealed_count).2 : Int) =
          b.cols * b.rows - b.num_mines ∧ b.game_over = false) ∨ b.win = true
    by_cases hcond : ((floodLoop b.cols b.rows (9 * (b.cols * b.rows).toNat + 1)
        [(col, row)] [] b.cells b.revealed_count).2 : Int) =
          b.cols * b.rows - b.num_mines ∧ b.game_over = false
    · rw [if_pos hcond]
      simp [hcond]
    · rw [if_neg hcond]
      simp [hcond]
  · rfl

theorem reveal_win_all_revealed (b : Board)
    (sh : List (Int × Int) → List (Int × Int)) (col row : Int)
    (hp : b.mines_placed = true) (hin : b.is_inbounds col row)
    (hrev : (b.cellAt col row).is_revealed = false)
    (hflag : (b.cellAt col row).is_flagged = false)
    (hmine : (b.cellAt col row).is_mine = false) (hwin0 : b.win = false)
    (hw : (b.reveal sh col row).win = true) :
    ∀ i : Nat, i < (b.reveal sh col row).cells.length →
      ((b.reveal sh col row).cells.getD i default).is_mine = false →
      ((b.reveal sh col row).cells.getD i default).is_revealed = true := by
  have hskip : ((b.cellAt col row).is_revealed || (b.cellAt col row).is_flagged)
      = false := by
    rw [hrev, hflag]
    rfl
  rw [reveal_flood b sh col row hin hp hskip hmine] at hw ⊢
  set bmid : Board := { b with
    cells := (floodLoop b.cols b.rows (9 * (b.cols * b.rows).toNat + 1)
      [(col, row)] [] b.cells b.revealed_count).1,
    revealed_count := (floodLoop b.cols b.rows (9 * (b.cols * b.rows).toNat + 1)
      [(col, row)] [] b.cells b.revealed_count).2 } with hbmid
  have hcond : (bmid.revealed_count : Int) = bmid.cols * bmid.rows - bmid.num_mines ∧
      bmid.game_over = false := by
    by_contra hnc
    rw [check_win_win, if_neg hnc] at hw
    have hbw : b.win = true := hw
    rw [hwin0] at hbw
    cases hbw
  rw [check_win_cells_fired bmid hcond]
  intro i hi hm
  rw [List.length_map] at hi
  rw [getD_map_lt _ _ _ hi] at hm ⊢
  by_cases har : (bmid.cells.getD i default).is_revealed = true
  · rw [if_neg (by
      rintro ⟨hx, _⟩
      rw [har] at hx
      cases hx)] at hm ⊢
    exact har
  · have har' : (bmid.cells.getD i default).is_revealed = false := by simpa using har
    have ham : (bmid.cells.getD i default).is_mine = false := by
      by_cases hc : (bmid.cells.getD i default).is_revealed = false ∧
          (bmid.cells.getD i default).is_mine = false
      · exact hc.2
      · rw [if_neg hc] at hm
        exact hm
    rw [if_pos ⟨har', ham⟩]

theorem reveal_mine_char (b : Board) (sh : List (Int × Int) → List (Int × Int))
    (col row : Int) (hp : b.mines_placed = true) (hin : b.is_inbounds col row)
    (hrev : (b.cellAt col row).is_revealed = false)
    (hflag : (b.cellAt col row).is_flagged = false)
    (hmine : (b.cellAt col row).is_mine = true) :
    (b.reveal sh col row).game_over = true ∧
    (b.reveal sh col row).win = b.win ∧
    (b.reveal sh col row).revealed_count = b.revealed_count ∧
    (b.reveal sh col row).cells.length = b.cells.length ∧
    (∀ i : Nat, i < b.cells.length →
      (b.reveal sh col row).cells.getD i default =
        (if (b.cells.getD i default).is_mine = true then
          { b.cells.getD i default with is_revealed := true }
        else b.cells.getD i default)) := by
  have hskip : ((b.cellAt col row).is_revealed || (b.cellAt col row).is_flagged)
      = false := by
    rw [hrev, hflag]
    rfl
  rw [reveal_mine_hit b sh col row hin hp hskip hmine]
  refine ⟨rfl, rfl, rfl, ?_, ?_⟩
  · exact reveal_all_mines_cells_length { b with game_over := true }
  · intro i hi
    exact reveal_all_mines_cells_getD { b with game_over := true } i hi

theorem reveal_game_over_unchanged (b : Board)
    (sh : List (Int × Int) → List (Int × Int)) (col row : Int)
    (hp : b.mines_placed = true)
    (h : (b.cellAt col row).is_mine = false ∨ (b.cellAt col row).is_flagged = true ∨
      (b.cellAt col row).is_revealed = true) :
    (b.reveal sh col row).game_over = b.game_over := by
  by_cases hin : b.is_inbounds col row
  · by_cases hskip : ((b.cellAt col row).is_revealed || (b.cellAt col row).is_flagged)
      = true
    · rw [reveal_skip b sh col row hin hp hskip]
    · have hskip' : ((b.cellAt col row).is_revealed ||
          (b.cellAt col row).is_flagged) = false := by simpa using hskip
      obtain ⟨hrv, hfl⟩ := Bool.or_eq_false_iff.mp hskip'
      have hmine : (b.cellAt col row).is_mine = false := by
        rcases h with h | h | h
        · exact h
        · rw [h] at hfl; cases hfl
        · rw [h] at hrv; cases hrv
      rw [reveal_flood b sh col row hin hp hskip' hmine]
      rw [check_win_game_over]
  · rw [reveal_out_of_bounds b sh col row hin]

theorem reveal_not_both_placed (b : Board)
    (sh : List (Int × Int) → List (Int × Int)) (col row : Int)
    (hp : b.mines_placed = true) (hgo : b.game_over = false) (hwin : b.win = false) :
    ¬ ((b.reveal sh col row).game_over = true ∧ (b.reveal sh col row).win = true) := by
  by_cases hin : b.is_inbounds col row
  · by_cases hskip : ((b.cellAt col row).is_revealed || (b.cellAt col row).is_flagged)
      = true
    · rw [reveal_skip b sh col row hin hp hskip]
      rintro ⟨h1, _⟩
      rw [hgo] at h1
      cases h1
    · have hskip' : ((b.cellAt col row).is_revealed ||
          (b.cellAt col row).is_flagged) = false := by simpa using hskip
      by_cases hmine : (b.cellAt col row).is_mine = true
      · rw [reveal_mine_hit b sh col row hin hp hskip' hmine]
        rintro ⟨_, h2⟩
        have hbw : b.win = true := h2
        rw [hwin] at hbw
        cases hbw
      · have hmine' : (b.cellAt col row).is_mine = false := by simpa using hmine
        rw [reveal_flood b sh col row hin hp hskip' hmine']
        rintro ⟨h1, _⟩
        rw [check_win_game_over] at h1
        have hbg : b.game_over = true := h1
        rw [hgo] at hbg
        cases hbg
  · rw [reveal_out_of_bounds b sh col row hin]
    rintro ⟨h1, _⟩
    rw [hgo] at h1
    cases h1

theorem reveal_not_both (b : Board) (sh : List (Int × Int) → List (Int × Int))
    (col row : Int) (hgo : b.game_over = false) (hwin : b.win = false) :
    ¬ ((b.reveal sh col row).game_over = true ∧ (b.reveal sh col row).win = true) := by
  by_cases hp : b.mines_placed = true
  · exact reveal_not_both_placed b sh col row hp hgo hwin
  · have hp' : b.mines_placed = false := by simpa using hp
    by_cases hin : b.is_inbounds col row
    · rw [reveal_unplaced b sh col row hin hp']
      exact reveal_not_both_placed (b.place_mines sh col row) sh col row
        (place_mines_placed ..) hgo hwin
    · rw [reveal_out_of_bounds b sh col row hin]
      rintro ⟨h1, _⟩
      rw [hgo] at h1
      cases h1

theorem applyAction_not_both (sh : List (Int × Int) → List (Int × Int)) (b : Board)
    (a : GameAction) (hgo : b.game_over = false) (hwin : b.win = false) :
    ¬ ((applyAction sh b a).game_over = true ∧ (applyAction sh b a).win = true) := by
  cases a with
  | reveal col row => exact reveal_not_both b sh col row hgo hwin
  | toggleFlag col row =>
    rintro ⟨h1, _⟩
    have h1' : (b.toggle_flag col row).game_over = true := h1
    rw [(toggle_flag_scalars b col row).2.2.2.2.2.1, hgo] at h1'
    cases h1'

theorem plays_not_both (sh : List (Int × Int) → List (Int × Int)) :
    ∀ (acts : List GameAction) (b : Board),
      ¬ (b.game_over = true ∧ b.win = true) →
      terminalFree sh b acts = true →
      ¬ ((plays sh b acts).game_over = true ∧ (plays sh b acts).win = true) := by
  intro acts
  induction acts with
  | nil =>
    intro b hb _
    exact hb
  | cons a rest ih =>
    intro b hb htf
    simp only [terminalFree, Bool.and_eq_true, Bool.not_eq_true'] at htf
    obtain ⟨⟨hgo, hwin⟩, htf'⟩ := htf
    have hstep : ¬ ((applyAction sh b a).game_over = true ∧
        (applyAction sh b a).win = true) := applyAction_not_both sh b a hgo hwin
    show ¬ ((plays sh (applyAction sh b a) rest).game_over = true ∧
      (plays sh (applyAction sh b a) rest).win = true)
    exact ih (applyAction sh b a) hstep htf'

theorem reveal_pos_char (b : Board) (sh : List (Int × Int) → List (Int × Int))
    (col row : Int)
    (hp : b.mines_placed = true)
    (hlen : b.cells.length = (b.cols * b.rows).toNat)
    (hin : b.is_inbounds col row)
    (hrev : (b.cellAt col row).is_revealed = false)
    (hflag : (b.cellAt col row).is_flagged = false)
    (hmine : (b.cellAt col row).is_mine = false)
    (hm : ((b.cells.filter fun cl => cl.is_mine).length : Int) = b.num_mines)
    (hc : b.revealed_count =
      (b.cells.filter fun cl => cl.is_revealed && ! cl.is_mine).length)
    (hadj : (b.cellAt col row).adjacent ≠ 0) :
    (b.reveal sh col row).cells = setRevealedL b.cells b.cols col row ∧
    (b.reveal sh col row).revealed_count = b.revealed_count + 1 := by
  have hskip : ((b.cellAt col row).is_revealed || (b.cellAt col row).is_flagged)
      = false := by
    rw [hrev, hflag]
    rfl
  rw [reveal_flood b sh col row hin hp hskip hmine]
  have hXpos : 0 < (b.cols * b.rows).toNat := by
    have := idxNat_lt (show inbOf b.cols b.rows (col, row) from hin)
    omega
  obtain ⟨m, hm9⟩ : ∃ m, 9 * (b.cols * b.rows).toNat = m + 1 :=
    ⟨9 * (b.cols * b.rows).toNat - 1, by omega⟩
  have hstep1 : floodLoop b.cols b.rows (9 * (b.cols * b.rows).toNat + 1)
      [(col, row)] [] b.cells b.revealed_count =
      floodLoop b.cols b.rows (9 * (b.cols * b.rows).toNat) [] [(col, row)]
        (setRevealedL b.cells b.cols col row) (b.revealed_count + 1) :=
    floodLoop_reveal_pos (by simp) hskip hmine hadj _ _ _
  have hstep2 : floodLoop b.cols b.rows (9 * (b.cols * b.rows).toNat) [] [(col, row)]
      (setRevealedL b.cells b.cols col row) (b.revealed_count + 1) =
      (setRevealedL b.cells b.cols col row, b.revealed_count + 1) := by
    rw [hm9]
    exact floodLoop_nil ..
  rw [hstep1, hstep2]
  have hone : newlyRevealedCount b.cells (setRevealedL b.cells b.cols col row) = 1 := by
    unfold setRevealedL
    refine nRC_set b.cells _ ?_ hrev
    rw [hlen]
    exact idxNat_lt (show inbOf b.cols b.rows (col, row) from hin)
  have hmid_m : (((setRevealedL b.cells b.cols col row).filter
      fun cl => cl.is_mine).length : Int) = b.num_mines := by
    rw [filter_length_eq_of_forall₂ (fun cl => cl.is_mine)
      (fun a b' hab => hab.1) (setRevealedL_mono b.cells b.cols col row)]
    exact hm
  have hmid_c : b.revealed_count + 1 = ((setRevealedL b.cells b.cols col row).filter
      fun cl => cl.is_revealed && ! cl.is_mine).length := by
    rw [filter_revealed_nonmine_of_monoNM (setRevealedL_monoNM b.cells b.cols col row
      hmine), hone, ← hc]
  have hmid_len : (setRevealedL b.cells b.cols col row).length =
      (b.cols * b.rows).toNat := by
    rw [setRevealedL_length]
    exact hlen
  have hcw := check_win_cells_eq
    { b with cells := setRevealedL b.cells b.cols col row,
             revealed_count := b.revealed_count + 1 } hmid_len hmid_m hmid_c
  constructor
  · exact hcw
  · rw [check_win_revealed_count]

theorem length_filter_eq_card_range (cs : List CellState) (P : CellState → Bool) :
    (cs.filter P).length =
      ((Finset.range cs.length).filter (fun i => P (cs.getD i default) = true)).card := by
  induction cs using List.reverseRecOn with
  | nil => simp
  | append_singleton ys x ih =>
    rw [List.filter_append, List.length_append, List.length_append]
    simp only [List.length_cons, List.length_nil]
    rw [Finset.range_succ, Finset.filter_insert]
    have hx : (ys ++ [x]).getD ys.length default = x := by
      rw [List.getD_append_right _ _ _ _ (le_refl _)]
      simp
    have hcongr : (Finset.range ys.length).filter
        (fun i => P ((ys ++ [x]).getD i default) = true) =
        (Finset.range ys.length).filter (fun i => P (ys.getD i default) = true) := by
      apply Finset.filter_congr
      intro i hi
      rw [Finset.mem_range] at hi
      rw [List.getD_append _ _ _ _ hi]
    by_cases hPx : P ((ys ++ [x]).getD ys.length default) = true
    · rw [if_pos hPx]
      rw [Finset.card_insert_of_not_mem (by simp)]
      rw [hcongr, ← ih]
      rw [hx] at hPx
      have hone : (List.filter P [x]).length = 1 := by
        simp only [List.filter_cons, hPx, if_true, List.filter_nil]
        rfl
      rw [hone]
    · rw [if_neg hPx]
      rw [hcongr, ← ih]
      rw [hx] at hPx
      have hPx' : P x = false := by simpa using hPx
      have hzero : (List.filter P [x]).length = 0 := by
        simp only [List.filter_cons, hPx', Bool.false_eq_true, if_false, List.filter_nil]
        rfl
      rw [hzero]
      omega

theorem applyAction_is_mine (sh2 : List (Int × Int) → List (Int × Int)) (b : Board)
    (a : GameAction) (hp : b.mines_placed = true) :
    (applyAction sh2 b a).mines_placed = true ∧
    ∀ i : Nat, ((applyAction sh2 b a).cells.getD i default).is_mine =
      (b.cells.getD i default).is_mine := by
  cases a with
  | reveal col row =>
    refine ⟨(reveal_scalars_placed b sh2 col row hp).2.2.2, ?_⟩
    intro i
    exact (reveal_cells_fields_placed b sh2 col row hp i).1
  | toggleFlag col row =>
    constructor
    · show (b.toggle_flag col row).mines_placed = true
      rw [(toggle_flag_scalars b col row).2.2.2.1]
      exact hp
    · intro i
      exact (toggle_flag_cells_fields b col row i).1

theorem plays_is_mine (sh2 : List (Int × Int) → List (Int × Int)) :
    ∀ (acts : List GameAction) (b : Board), b.mines_placed = true →
      ∀ i : Nat, ((plays sh2 b acts).cells.getD i default).is_mine =
        (b.cells.getD i default).is_mine := by
  intro acts
  induction acts with
  | nil =>
    intro b _ i
    rfl
  | cons a rest ih =>
    intro b hb i
    obtain ⟨hplaced, hmine⟩ := applyAction_is_mine sh2 b a hb
    show ((plays sh2 (applyAction sh2 b a) rest).cells.getD i default).is_mine = _
    rw [ih (applyAction sh2 b a) hplaced i, hmine i]

theorem filter_length_zero_of_all_false {l : List CellState} (P : CellState → Bool)
    (h : ∀ x ∈ l, P x = false) : (l.filter P).length = 0 := by
  induction l with
  | nil => rfl
  | cons x xs ih =>
    rw [List.filter_cons, h x (List.mem_cons_self ..)]
    simp only [Bool.false_eq_true, if_false]
    exact ih (fun y hy => h y (List.mem_cons_of_mem _ hy))

theorem toggle_flag_cellAt_self (b : Board) (col row : Int)
    (hin : b.is_inbounds col row) (hrev : (b.cellAt col row).is_revealed = false)
    (hlen : b.cells.length = (b.cols * b.rows).toNat) :
    (b.toggle_flag col row).cellAt col row =
      { b.cellAt col row with is_flagged := ! (b.cellAt col row).is_flagged } := by
  rw [toggle_flag_set b col row hin hrev]
  show (b.cells.set (b.index col row).toNat
    { b.cellAt col row with is_flagged := ! (b.cellAt col row).is_flagged }).getD
      (row * b.cols + col).toNat default = _
  exact getD_set_self _ _ _ (by rw [hlen]; exact idxNat_lt hin)

def Board.effectiveBoard (b : Board) (shuffle : List (Int × Int) → List (Int × Int))
    (col row : Int) : Board :=
  if b.mines_placed then b else b.place_mines shuffle col row

theorem reveal_win_iff_aux (b : Board) (sh : List (Int × Int) → List (Int × Int))
    (col row : Int) (hp : b.mines_placed = true) (hin : b.is_inbounds col row)
    (hwin0 : b.win = false)
    (hrev : (b.cellAt col row).is_revealed = false)
    (hflag : (b.cellAt col row).is_flagged = false)
    (hmine : (b.cellAt col row).is_mine = false) :
    ((b.reveal sh col row).win = true ↔
      (((b.reveal sh col row).revealed_count : Int) = b.cols * b.rows - b.num_mines ∧
        (b.reveal sh col row).game_over = false)) ∧
    ((b.reveal sh col row).win = true →
      ∀ i : Nat, i < (b.reveal sh col row).cells.length →
        ((b.reveal sh col row).cells.getD i default).is_mine = false →
        ((b.reveal sh col row).cells.getD i default).is_revealed = true) := by
  obtain ⟨hiff, _⟩ := reveal_win_char b sh col row hp hin hrev hflag hmine
  constructor
  · rw [hiff, hwin0]
    simp
  · intro hw
    exact reveal_win_all_revealed b sh col row hp hin hrev hflag hmine hwin0 hw

/-! ### Concrete boards used as witnesses and counterexamples -/

def exShuffle (l : List (Int × Int)) : List (Int × Int) :=
  (l.filter fun p => decide (p = ((0 : Int), (0 : Int)) ∨ p = ((6 : Int), (0 : Int)))) ++
  (l.filter fun p => ! decide (p = ((0 : Int), (0 : Int)) ∨ p = ((6 : Int), (0 : Int))))

def idShuffle (l : List (Int × Int)) : List (Int × Int) := l

def revShuffle (l : List (Int × Int)) : List (Int × Int) := l.reverse

def exBoard1 : Board := (Board.init 9 1 2).reveal exShuffle 3 0

def exBoard2 : Board := exBoard1.reveal exShuffle 7 0

/-! ### The claims -/

/-- C1: for every reveal call whose effective target (after the lazy first-call
mine placement) is an in-bounds, unrevealed, unflagged, non-mine cell of a
board that has not already won, the win flag ends up true if and only if the
post-flood-fill `revealed_count` equals `cols * rows - num_mines` with
`game_over` false; and whenever win is set, every non-mine cell of the
resulting board is revealed. -/
theorem C1_win_condition (b : Board) (sh : List (Int × Int) → List (Int × Int))
    (col row : Int) (hin : b.is_inbounds col row) (hwin0 : b.win = false)
    (hrev : ((b.effectiveBoard sh col row).cellAt col row).is_revealed = false)
    (hflag : ((b.effectiveBoard sh col row).cellAt col row).is_flagged = false)
    (hmine : ((b.effectiveBoard sh col row).cellAt col row).is_mine = false) :
    ((b.reveal sh col row).win = true ↔
      (((b.reveal sh col row).revealed_count : Int) = b.cols * b.rows - b.num_mines ∧
        (b.reveal sh col row).game_over = false)) ∧
    ((b.reveal sh col row).win = true →
      ∀ i : Nat, i < (b.reveal sh col row).cells.length →
        ((b.reveal sh col row).cells.getD i default).is_mine = false →
        ((b.reveal sh col row).cells.getD i default).is_revealed = true) := by
  by_cases hp : b.mines_placed = true
  · have heb : b.effectiveBoard sh col row = b := by
      unfold Board.effectiveBoard
      rw [if_pos hp]
    rw [heb] at hrev hflag hmine
    exact reveal_win_iff_aux b sh col row hp hin hwin0 hrev hflag hmine
  · have hp' : b.mines_placed = false := by simpa using hp
    have heb : b.effectiveBoard sh col row = b.place_mines sh col row := by
      unfold Board.effectiveBoard
      simp only [hp', Bool.false_eq_true, if_false]
    rw [heb] at hrev hflag hmine
    rw [reveal_unplaced b sh col row hin hp']
    exact reveal_win_iff_aux (b.place_mines sh col row) sh col row
      (place_mines_placed ..) hin (by rw [place_mines_win]; exact hwin0)
      hrev hflag hmine

theorem C1_win_condition_witness :
    ((Board.init 3 3 0).reveal idShuffle 1 1).win = true := by
  have h := C1_win_condition (Board.init 3 3 0) idShuffle 1 1 (by decide) rfl
    (by decide) (by decide) (by decide)
  exact h.1.mpr (by decide)

/-- C2: on a board with mines placed, revealing an in-bounds mine cell that is
neither revealed nor flagged sets `game_over`, reveals every mine cell, leaves
every non-mine cell untouched; and a reveal whose target is non-mine, flagged,
or already revealed never changes `game_over`. -/
theorem C2_mine_hit_loss (b : Board) (sh : List (Int × Int) → List (Int × Int))
    (col row : Int) (hp : b.mines_placed = true) :
    (((b.cellAt col row).is_mine = true → b.is_inbounds col row →
      (b.cellAt col row).is_revealed = false →
      (b.cellAt col row).is_flagged = false →
      ((b.reveal sh col row).game_over = true ∧
       (∀ i : Nat, i < b.cells.length →
         (b.cells.getD i default).is_mine = true →
         ((b.reveal sh col row).cells.getD i default).is_revealed = true) ∧
       (∀ i : Nat, i < b.cells.length →
         (b.cells.getD i default).is_mine = false →
         (b.reveal sh col row).cells.getD i default = b.cells.getD i default))) ∧
     (((b.cellAt col row).is_mine = false ∨ (b.cellAt col row).is_flagged = true ∨
       (b.cellAt col row).is_revealed = true) →
       (b.reveal sh col row).game_over = b.game_over)) := by
  constructor
  · intro hmine hin hrev hflag
    obtain ⟨hgo, _, _, _, hcells⟩ := reveal_mine_char b sh col row hp hin hrev hflag hmine
    refine ⟨hgo, ?_, ?_⟩
    · intro i hi hm
      rw [hcells i hi, if_pos hm]
    · intro i hi hm
      rw [hcells i hi, if_neg (by rw [hm]; exact Bool.false_ne_true)]
  · exact reveal_game_over_unchanged b sh col row hp

theorem C2_mine_hit_loss_witness :
    (exBoard1.reveal exShuffle 0 0).game_over = true := by
  have h := C2_mine_hit_loss exBoard1 exShuffle 0 0 (by decide)
  exact (h.1 (by decide) (by decide) (by decide) (by decide)).1

/-- C3: on a freshly constructed board with `cols > 0`, `rows > 0` and
`0 ≤ mines ≤ cols * rows - 9`, an in-bounds first reveal places the mines and
leaves the clicked cell and each of its in-bounds neighbors mine-free, so the
first reveal never hits a mine. -/
theorem C3_first_click_safe (cols rows mines : Int)
    (sh : List (Int × Int) → List (Int × Int)) (c r : Int)
    (hcols : 0 < cols) (hrows : 0 < rows) (hm0 : 0 ≤ mines)
    (hm9 : mines ≤ cols * rows - 9)
    (hin : (Board.init cols rows mines).is_inbounds c r)
    (hperm : (sh ((Board.init cols rows mines).minePool c r)).Perm
      ((Board.init cols rows mines).minePool c r)) :
    ((Board.init cols rows mines).reveal sh c r).mines_placed = true ∧
    (((Board.init cols rows mines).reveal sh c r).cellAt c r).is_mine = false ∧
    ∀ q ∈ (Board.init cols rows mines).neighbors c r,
      (((Board.init cols rows mines).reveal sh c r).cellAt q.1 q.2).is_mine
        = false := by
  have hp0 : (Board.init cols rows mines).mines_placed = false := rfl
  rw [reveal_unplaced (Board.init cols rows mines) sh c r hin hp0]
  have hplaced : ((Board.init cols rows mines).place_mines sh c r).mines_placed
      = true := place_mines_placed ..
  have hsub : ∀ x ∈ sh ((Board.init cols rows mines).minePool c r),
      x ∈ (Board.init cols rows mines).minePool c r :=
    fun x hx => hperm.mem_iff.mp hx
  have hm0' : (0 : Int) ≤ (Board.init cols rows mines).num_mines := hm0
  have hPos := minePositions_inb (Board.init cols rows mines) sh c r hm0' hsub
  have hlen := init_hlen cols rows mines hcols hrows
  have hsafe := minePositions_not_safe (Board.init cols rows mines) sh c r hm0' hsub
  have hmine_of : ∀ p : Int × Int,
      inbOf (Board.init cols rows mines).cols (Board.init cols rows mines).rows p →
      p ∈ (c, r) :: (Board.init cols rows mines).neighbors c r →
      (((Board.init cols rows mines).place_mines sh c r).cellAt p.1 p.2).is_mine
        = false := by
    intro p hpin hpsafe
    have hf := (place_mines_cell_fields (Board.init cols rows mines) sh c r
      hlen hPos p hpin).1
    have hbase : (Board.init cols rows mines).cellAt p.1 p.2 = default :=
      init_cellAt cols rows mines p
    have hnm : p ∉ (Board.init cols rows mines).minePositions sh c r :=
      fun hmem => hsafe p hmem hpsafe
    rw [hf, hbase, decide_eq_false hnm]
    rfl
  refine ⟨(reveal_scalars_placed _ sh c r hplaced).2.2.2, ?_, ?_⟩
  · have hred : ((((Board.init cols rows mines).place_mines sh c r).reveal sh c r).cellAt
        c r).is_mine =
        (((Board.init cols rows mines).place_mines sh c r).cellAt c r).is_mine :=
      reveal_is_mine_cellAt _ sh c r hplaced (c, r)
    rw [hred]
    exact hmine_of (c, r) hin (List.mem_cons_self ..)
  · intro q hq
    have hred : ((((Board.init cols rows mines).place_mines sh c r).reveal sh c r).cellAt
        q.1 q.2).is_mine =
        (((Board.init cols rows mines).place_mines sh c r).cellAt q.1 q.2).is_mine :=
      reveal_is_mine_cellAt _ sh c r hplaced q
    rw [hred]
    exact hmine_of q (neighborsOf_inb hq) (List.mem_cons_of_mem _ hq)

theorem C3_first_click_safe_witness :
    (((Board.init 3 3 0).reveal idShuffle 1 1).cellAt 1 1).is_mine = false := by
  have h := C3_first_click_safe 3 3 0 idShuffle 1 1 (by decide) (by decide)
    (by decide) (by decide) (by decide) (List.Perm.refl _)
  exact h.2.1

def claimC4Holds (b : Board) (sh : List (Int × Int) → List (Int × Int))
    (col row : Int) : Prop :=
  b.mines_placed = true →
  b.cells.length = (b.cols * b.rows).toNat →
  b.is_inbounds col row →
  (b.cellAt col row).is_revealed = false →
  (b.cellAt col row).is_flagged = false →
  (b.cellAt col row).is_mine = false →
  ((b.cells.filter fun cl => cl.is_mine).length : Int) = b.num_mines →
  b.revealed_count =
    (b.cells.filter fun cl => cl.is_revealed && ! cl.is_mine).length →
  (((b.cellAt col row).adjacent ≠ 0 →
    (∀ p : Int × Int, inbOf b.cols b.rows p →
      (newlyRevealed b (b.reveal sh col row) p ↔ p = (col, row))) ∧
    (b.reveal sh col row).revealed_count = b.revealed_count + 1) ∧
   ((b.cellAt col row).adjacent = 0 →
    (∀ p : Int × Int, inbOf b.cols b.rows p →
      (newlyRevealed b (b.reveal sh col row) p ↔
        claimRegion b (col, row) p ∨ claimBorder b (col, row) p)) ∧
    (b.reveal sh col row).revealed_count =
      b.revealed_count + newlyRevealedCount b.cells (b.reveal sh col row).cells))

/-- C4 (amended): on a well-formed board with mines placed, revealing an
in-bounds, unrevealed, unflagged, non-mine target with `adjacent ≠ 0` newly
reveals exactly that one cell and bumps `revealed_count` by one; with
`adjacent = 0` the newly revealed cells are exactly the target's connected
zero-adjacency region of *unrevealed*, unflagged, non-mine cells plus that
region's one-cell border of *unrevealed*, unflagged, non-mine cells, and
`revealed_count` grows by exactly the number of newly revealed cells.  (The
claim as stated, which omits the already-revealed exclusion from region and
border, is refuted by `C4_flood_fill_counterexample`.) -/
theorem C4_flood_fill_amended (b : Board) (sh : List (Int × Int) → List (Int × Int))
    (col row : Int)
    (hp : b.mines_placed = true)
    (hlen : b.cells.length = (b.cols * b.rows).toNat)
    (hin : b.is_inbounds col row)
    (hrev : (b.cellAt col row).is_revealed = false)
    (hflag : (b.cellAt col row).is_flagged = false)
    (hmine : (b.cellAt col row).is_mine = false)
    (hm : ((b.cells.filter fun cl => cl.is_mine).length : Int) = b.num_mines)
    (hc : b.revealed_count =
      (b.cells.filter fun cl => cl.is_revealed && ! cl.is_mine).length) :
    (((b.cellAt col row).adjacent ≠ 0 →
      (∀ p : Int × Int, inbOf b.cols b.rows p →
        (newlyRevealed b (b.reveal sh col row) p ↔ p = (col, row))) ∧
      (b.reveal sh col row).revealed_count = b.revealed_count + 1) ∧
     ((b.cellAt col row).adjacent = 0 →
      (∀ p : Int × Int, inbOf b.cols b.rows p →
        (newlyRevealed b (b.reveal sh col row) p ↔
          zeroRegion b (col, row) p ∨ zeroBorder b (col, row) p)) ∧
      (b.reveal sh col row).revealed_count =
        b.revealed_count + newlyRevealedCount b.cells (b.reveal sh col row).cells)) := by
  obtain ⟨hchar, hcount⟩ := reveal_newly_char b sh col row hp hlen hin hrev hflag hmine hm hc
  have hR : revealableAt b (col, row) := ⟨hin, hrev, hflag, hmine⟩
  constructor
  · intro hadj
    have hnz : ¬ zeroAt b (col, row) := fun hz => hadj hz.2
    refine ⟨?_, (reveal_pos_char b sh col row hp hlen hin hrev hflag hmine hm hc hadj).2⟩
    intro p hp'
    exact (hchar p hp').trans (rtg_pok_iff_singleton b hnz hR p)
  · intro hadj
    have hZ : zeroAt b (col, row) := ⟨hR, hadj⟩
    exact ⟨fun p hp' => (hchar p hp').trans (rtg_pok_iff_region_border b hZ p), hcount⟩

theorem C4_flood_fill_amended_witness :
    (exBoard1.reveal exShuffle 8 0).revealed_count =
      exBoard1.revealed_count +
        newlyRevealedCount exBoard1.cells (exBoard1.reveal exShuffle 8 0).cells := by
  have h := C4_flood_fill_amended exBoard1 exShuffle 8 0 (by decide) (by decide)
    (by decide) (by decide) (by decide) (by decide) (by decide) (by decide)
  exact (h.2 (by decide)).2

/-- On `exBoard2` (a 9×1 board with mines at columns 0 and 6, columns 1–5 and 7
already revealed) the claim as stated fails at target (8,0): the cell (7,0)
belongs to the claimed border of the zero region of (8,0) but is already
revealed, hence not newly revealed. -/
theorem C4_flood_fill_counterexample : ¬ claimC4Holds exBoard2 exShuffle 8 0 := by
  intro h
  have h2 := (h (by decide) (by decide) (by decide) (by decide) (by decide)
    (by decide) (by decide) (by decide)).2 (by decide)
  have hiff := h2.1 (7, 0) (by decide)
  have hrhs : claimRegion exBoard2 (8, 0) (7, 0) ∨ claimBorder exBoard2 (8, 0) (7, 0) :=
    Or.inr ⟨by decide, (8, 0), ⟨Relation.ReflTransGen.refl, by decide⟩, by decide⟩
  have hlhs := hiff.mpr hrhs
  exact absurd hlhs.2 (by decide)

/-- C5: the spec requires construction to validate `cols > 0`, `rows > 0` and
`0 ≤ mines ≤ cols*rows - 9`, failing fast with `InvalidConfiguration`; the
source constructor performs no validation at all (no `InvalidConfiguration`
exists anywhere in the code), so `Board.init 1 1 0` — a 1×1 board the spec
says must be rejected, since `0 > 1*1 - 9` — is constructed as an ordinary
board with its fields set normally. -/
theorem C5_no_construction_validation :
    (Board.init 1 1 0).cols = 1 ∧ (Board.init 1 1 0).rows = 1 ∧
    (Board.init 1 1 0).num_mines = 0 ∧ (Board.init 1 1 0).cells.length = 1 ∧
    ¬ ((0 : Int) ≤ 1 * 1 - 9) := by
  refine ⟨rfl, rfl, rfl, ?_, by decide⟩
  decide

/-- C6 (amended): starting from a freshly constructed board, along every
sequence of reveal/toggle-flag calls in which no call is issued on an already
terminal board (`terminalFree`), `game_over` and `win` are never both true.
(The claim as stated, quantifying over all call sequences, is refuted by
`C6_mutual_exclusion_counterexample`: after a win, revealing a mine sets
`game_over` while `win` stays true.) -/
theorem C6_mutual_exclusion_amended (sh : List (Int × Int) → List (Int × Int))
    (cols rows mines : Int) (acts : List GameAction)
    (htf : terminalFree sh (Board.init cols rows mines) acts = true) :
    ¬ ((plays sh (Board.init cols rows mines) acts).game_over = true ∧
       (plays sh (Board.init cols rows mines) acts).win = true) := by
  refine plays_not_both sh acts (Board.init cols rows mines) ?_ htf
  rintro ⟨h1, _⟩
  exact Bool.noConfusion (show false = true from h1)

theorem C6_mutual_exclusion_amended_witness :
    ¬ ((plays idShuffle (Board.init 3 3 0) [GameAction.reveal 1 1]).game_over = true ∧
       (plays idShuffle (Board.init 3 3 0) [GameAction.reveal 1 1]).win = true) :=
  C6_mutual_exclusion_amended idShuffle 3 3 0 [GameAction.reveal 1 1] (by decide)

/-- On a 4×3 board with one mine, revealing (1,1) first places the mine at
(3,2) (with the reversing shuffle) and flood-fills every non-mine cell, so
`win` becomes true; a further `reveal (3,2)` hits the mine and sets
`game_over` while `win` stays true — both flags hold, refuting the claim as
stated for arbitrary call sequences. -/
theorem C6_mutual_exclusion_counterexample :
    (plays revShuffle (Board.init 4 3 1)
      [GameAction.reveal 1 1, GameAction.reveal 3 2]).game_over = true ∧
    (plays revShuffle (Board.init 4 3 1)
      [GameAction.reveal 1 1, GameAction.reveal 3 2]).win = true := by
  constructor
  · decide
  · decide

/-- C7: on a freshly constructed board with `cols > 0`, `rows > 0` and
`0 ≤ mines ≤ cols*rows - 9`, immediately after `place_mines` exactly `mines`
cells have `is_mine = true`, and no subsequent sequence of reveal or
toggle-flag calls ever changes any cell's `is_mine` field. -/
theorem C7_mine_count_stable (cols rows mines : Int)
    (sh sh2 : List (Int × Int) → List (Int × Int)) (sc sr : Int)
    (acts : List GameAction)
    (hcols : 0 < cols) (hrows : 0 < rows) (hm0 : 0 ≤ mines)
    (hm9 : mines ≤ cols * rows - 9)
    (hperm : (sh ((Board.init cols rows mines).minePool sc sr)).Perm
      ((Board.init cols rows mines).minePool sc sr)) :
    (((((Board.init cols rows mines).place_mines sh sc sr).cells.filter
      fun cl => cl.is_mine).length : Int) = mines) ∧
    ∀ i : Nat,
      ((plays sh2 ((Board.init cols rows mines).place_mines sh sc sr) acts).cells.getD
        i default).is_mine =
      (((Board.init cols rows mines).place_mines sh sc sr).cells.getD
        i default).is_mine := by
  constructor
  · have hsub : ∀ x ∈ sh ((Board.init cols rows mines).minePool sc sr),
        x ∈ (Board.init cols rows mines).minePool sc sr :=
      fun x hx => hperm.mem_iff.mp hx
    have hm0' : (0 : Int) ≤ (Board.init cols rows mines).num_mines := hm0
    have hPos := minePositions_inb (Board.init cols rows mines) sh sc sr hm0' hsub
    have hlen := init_hlen cols rows mines hcols hrows
    have hnodup := minePositions_nodup (Board.init cols rows mines) sh sc sr hm0' hperm
    have hclean : ∀ q ∈ (Board.init cols rows mines).minePositions sh sc sr,
        (cellAtL (Board.init cols rows mines).cells
          (Board.init cols rows mines).cols q.1 q.2).is_mine = false := by
      intro q _
      show ((Board.init cols rows mines).cellAt q.1 q.2).is_mine = false
      rw [init_cellAt cols rows mines q]
      rfl
    have hcount := foldl_setMine_count (Board.init cols rows mines).cols
      (Board.init cols rows mines).rows
      ((Board.init cols rows mines).minePositions sh sc sr)
      (Board.init cols rows mines).cells hlen hnodup hPos hclean
    have hinit0 : ((Board.init cols rows mines).cells.filter
        fun cl => cl.is_mine).length = 0 :=
      filter_length_zero_of_all_false _ (fun x hx => by
        rw [init_cells_all_default cols rows mines x hx]
        rfl)
    have hfit : (Board.init cols rows mines).num_mines.toNat ≤
        ((Board.init cols rows mines).minePool sc sr).length := by
      have hge' : (allPositionsOf cols rows).length ≤
          ((Board.init cols rows mines).minePool sc sr).length + 9 :=
        minePool_length_ge (Board.init cols rows mines) sc sr
      have hall' : (allPositionsOf cols rows).length = rows.toNat * cols.toNat :=
        allPositionsOf_length (Board.init cols rows mines).cols
          (Board.init cols rows mines).rows
      have h1 : mines.toNat + 9 ≤ (cols * rows).toNat := by omega
      have hmul : (cols * rows).toNat = cols.toNat * rows.toNat :=
        toNat_mul_of_nonneg (le_of_lt hcols) (le_of_lt hrows)
      have hcomm : cols.toNat * rows.toNat = rows.toNat * cols.toNat :=
        Nat.mul_comm ..
      have h2 : (Board.init cols rows mines).num_mines.toNat = mines.toNat := rfl
      rw [h2]
      omega
    have hlenpos := minePositions_length_eq (Board.init cols rows mines) sh sc sr
      hm0' hperm hfit
    rw [place_mines_cells_def]
    rw [@filter_length_eq_of_forall₂ cellMRF (fun cl => cl.is_mine)
      (fun a b' hab => hab.1) _ _ (adj_pass_forall₂ (Board.init cols rows mines) _)]
    rw [hcount, hlenpos, hinit0]
    have h2 : (Board.init cols rows mines).num_mines.toNat = mines.toNat := rfl
    rw [h2]
    omega
  · exact plays_is_mine sh2 acts ((Board.init cols rows mines).place_mines sh sc sr)
      (place_mines_placed ..)

theorem C7_mine_count_stable_witness :
    ((((Board.init 4 3 1).place_mines revShuffle 1 1).cells.filter
      fun cl => cl.is_mine).length : Int) = 1 := by
  have h := C7_mine_count_stable 4 3 1 revShuffle idShuffle 1 1 [] (by decide)
    (by decide) (by decide) (by decide) (List.reverse_perm _)
  exact h.1

/-- C8: `toggle_flag` is a no-op when the coordinate is out of bounds or the
cell is already revealed; on a well-formed board it otherwise inverts the
target cell's `is_flagged` (so toggling twice restores the original value);
and it never changes any cell's `is_revealed`.  (The operation is modelled
from spec §4.6, as its body is an unimplemented stub in the source.) -/
theorem C8_toggle_flag_contract (b : Board) (col row : Int) :
    (¬ b.is_inbounds col row → b.toggle_flag col row = b) ∧
    (b.is_inbounds col row → (b.cellAt col row).is_revealed = true →
      b.toggle_flag col row = b) ∧
    (b.is_inbounds col row → (b.cellAt col row).is_revealed = false →
      b.cells.length = (b.cols * b.rows).toNat →
      ((b.toggle_flag col row).cellAt col row).is_flagged
          = ! (b.cellAt col row).is_flagged ∧
      (((b.toggle_flag col row).toggle_flag col row).cellAt col row).is_flagged
          = (b.cellAt col row).is_flagged) ∧
    (∀ i : Nat, ((b.toggle_flag col row).cells.getD i default).is_revealed =
      (b.cells.getD i default).is_revealed) := by
  refine ⟨toggle_flag_oob b col row, toggle_flag_revealed b col row, ?_, ?_⟩
  · intro hin hrev hlen
    have h1 := toggle_flag_cellAt_self b col row hin hrev hlen
    refine ⟨by rw [h1], ?_⟩
    have hcols := (toggle_flag_scalars b col row).1
    have hrows := (toggle_flag_scalars b col row).2.1
    have hin' : (b.toggle_flag col row).is_inbounds col row := by
      unfold Board.is_inbounds inbOf at hin ⊢
      rw [hcols, hrows]
      exact hin
    have hrev' : ((b.toggle_flag col row).cellAt col row).is_revealed = false := by
      rw [h1]
      exact hrev
    have hlen' : (b.toggle_flag col row).cells.length =
        ((b.toggle_flag col row).cols * (b.toggle_flag col row).rows).toNat := by
      rw [toggle_flag_set b col row hin hrev]
      show (b.cells.set (b.index col row).toNat _).length = (b.cols * b.rows).toNat
      rw [List.length_set]
      exact hlen
    have h2 := toggle_flag_cellAt_self (b.toggle_flag col row) col row hin' hrev' hlen'
    rw [h2, h1]
    exact Bool.not_not _
  · exact fun i => (toggle_flag_cells_fields b col row i).2.1

theorem C8_toggle_flag_contract_witness :
    (((Board.init 3 3 0).toggle_flag 1 1).cellAt 1 1).is_flagged = true := by
  have h := C8_toggle_flag_contract (Board.init 3 3 0) 1 1
  have h3 := (h.2.2.1 (by decide) (by decide) (by decide)).1
  rw [h3]
  decide

/-- C9: `flagged_count` equals the number of board positions whose cell has
`is_flagged = true`; as a Lean function of the board it is a pure query with
no side effects.  (The operation is modelled from spec §4.7, as its body is
an unimplemented stub in the source.) -/
theorem C9_flagged_count_correct (b : Board) :
    b.flagged_count = ((Finset.range b.cells.length).filter
      (fun i => (b.cells.getD i default).is_flagged = true)).card := by
  unfold Board.flagged_count
  exact length_filter_eq_card_range b.cells _

theorem C9_flagged_count_correct_witness :
    ((Board.init 3 3 0).toggle_flag 1 1).flagged_count =
      ((Finset.range ((Board.init 3 3 0).toggle_flag 1 1).cells.length).filter
        (fun i => ((((Board.init 3 3 0).toggle_flag 1 1).cells.getD
          i default).is_flagged) = true)).card :=
  C9_flagged_count_correct ((Board.init 3 3 0).toggle_flag 1 1)

/-- C10: on a board with mines placed, `reveal` never changes any cell's
`is_mine`, `is_flagged` or `adjacent` field, nor the board's `cols`, `rows`,
`num_mines`, `mines_placed` or cell count — only `is_revealed` fields and
the scalars `revealed_count`, `game_over`, `win` can change. -/
theorem C10_reveal_frame (b : Board) (sh : List (Int × Int) → List (Int × Int))
    (col row : Int) (hp : b.mines_placed = true) :
    (∀ i : Nat,
      ((b.reveal sh col row).cells.getD i default).is_mine =
        (b.cells.getD i default).is_mine ∧
      ((b.reveal sh col row).cells.getD i default).is_flagged =
        (b.cells.getD i default).is_flagged ∧
      ((b.reveal sh col row).cells.getD i default).adjacent =
        (b.cells.getD i default).adjacent) ∧
    (b.reveal sh col row).cols = b.cols ∧
    (b.reveal sh col row).rows = b.rows ∧
    (b.reveal sh col row).num_mines = b.num_mines ∧
    (b.reveal sh col row).mines_placed = b.mines_placed ∧
    (b.reveal sh col row).cells.length = b.cells.length := by
  obtain ⟨hc, hr, hn, hpl⟩ := reveal_scalars_placed b sh col row hp
  refine ⟨reveal_cells_fields_placed b sh col row hp, hc, hr, hn, ?_, ?_⟩
  · rw [hpl, hp]
  · exact (cellsMono_length (reveal_cells_mono b sh col row hp)).symm

theorem C10_reveal_frame_witness :
    ((exBoard1.reveal exShuffle 8 0).cells.getD 0 default).is_mine =
      (exBoard1.cells.getD 0 default).is_mine := by
  have h := C10_reveal_frame exBoard1 exShuffle 8 0 (by decide)
  exact (h.1 0).1
